import Mathlib

/-!
# AVL tree (`src/AVL.h`): shallow embedding and verification

The C++ class `AVL<T>` owns a graph of heap nodes linked by raw pointers.
The embedding represents the part of the heap reachable from a `Node*` as a
finite tree: `Node.null` is `nullptr`, `Node.mk` is a live node together with
everything reachable from it.  Every live node carries its heap address, so
that the pointer comparison `node == m_root` made by the rotations can be
evaluated exactly as the source does.

* `T` is any linearly ordered type (`<`, `>` and `!=` of the source are the
  order and the disequality of `α`).
* `int height` is an `Int`; heights stay far from the 32-bit limits.
* `size_t m_size` is a `Nat` reduced modulo `2 ^ 64` at every update.
* Dereferencing `nullptr` is undefined behaviour; the mutators return `none`
  there and the queries return `Exn.nullDeref`.
* `new Node(value)` returns an address that no live node of the tree has
  (`freshAddr`); allocation failure is not modelled.
* A traversal is the list of the values handed to the visitor, in call order.
* The queue loop of `doLevelorder` runs on fuel, the node count of the tree;
  `doLevelorder_eq` shows that this fuel always suffices.
* The copy constructor is `copy`: the level-order sequence of the source
  inserted, in that order, into the empty tree.

A mutator that works on the subtree below a pointer takes the tree and the
members (`Self`) and returns the new subtree together with the updated
members.  `insert` discards the pointer `doInsert` returns, so the tree of the
object after the call is looked up (`deref`) at the address `m_root` holds.
-/

namespace AVLTree

/-- Value of a `Node*`: `null` is `nullptr`; `mk addr left right height value`
is the node allocated at `addr` with the four fields of `struct Node`. -/
inductive Node (α : Type) where
  | null : Node α
  | mk (addr : Nat) (left right : Node α) (height : Int) (value : α) : Node α
  deriving DecidableEq

/-- The data members of an `AVL<T>` object between two calls: the tree
`m_root` points to, and the counter `m_size`. -/
structure AVL (α : Type) where
  m_root : Node α
  m_size : Nat
  deriving DecidableEq

/-- The data members as a running member function sees them: `m_root` as a
bare pointer (`none` is `nullptr`) and `m_size`. -/
structure Self where
  m_root : Option Nat
  m_size : Nat
  deriving DecidableEq

/-- Outcomes of `min()` / `max()` other than a value: the thrown
`std::logic_error`, or a dereference of `nullptr`. -/
inductive Exn where
  | logic_error : Exn
  | nullDeref : Exn
  deriving DecidableEq

/-- Number of values of `size_t`. -/
def SIZE_MOD : Nat := 2 ^ 64

/-- Increment `++m_size` of a `size_t`. -/
def incSize (n : Nat) : Nat := (n + 1) % SIZE_MOD

/-- Decrement `--m_size` of a `size_t`: 0 wraps around to `2 ^ 64 - 1`. -/
def decSize (n : Nat) : Nat :=
  if n % SIZE_MOD = 0 then SIZE_MOD - 1 else n % SIZE_MOD - 1

/-- The pointer itself: the address of a live node, `none` for `nullptr`. -/
def addrOf {α : Type} : Node α → Option Nat
  | .null => none
  | .mk a _ _ _ _ => some a

/-- Largest address of a live node of the tree (0 when there is none). -/
def maxAddr {α : Type} : Node α → Nat
  | .null => 0
  | .mk a l r _ _ => Max.max a (Max.max (maxAddr l) (maxAddr r))

/-- Address returned by `new Node(value)`: one that no live node of the tree
has. -/
def freshAddr {α : Type} (t : Node α) : Nat := maxAddr t + 1

/-- The tree a pointer designates inside a heap region given as a tree:
the subtree whose top has that address. -/
def deref {α : Type} (p : Option Nat) : Node α → Node α
  | .null => .null
  | .mk a l r h v =>
    if p = some a then .mk a l r h v
    else
      match deref p l with
      | .null => deref p r
      | found => found

/-- Constructor `AVL()`: no node, size 0. -/
def empty_tree {α : Type} : AVL α := ⟨.null, 0⟩

/-- Method `AVL::size`. -/
def size {α : Type} (t : AVL α) : Nat := t.m_size

/-- Method `AVL::empty` : `!m_size`. -/
def empty {α : Type} (t : AVL α) : Bool := t.m_size == 0

/-- Method `AVL::heightOfNode`. -/
def heightOfNode {α : Type} : Node α → Int
  | .null => 0
  | .mk _ _ _ h _ => h

/-- Method `AVL::getBalance`. -/
def getBalance {α : Type} : Node α → Int
  | .null => 0
  | .mk _ l r _ _ => heightOfNode l - heightOfNode r

/-- Method `AVL::updateNodeHeight`: the node with its `height` field recomputed. -/
def updateNodeHeight {α : Type} : Node α → Node α
  | .null => .null
  | .mk a l r _ v => .mk a l r (Max.max (heightOfNode l) (heightOfNode r) + 1) v

/-- Method `AVL::leftRotate`.  After the pointer rewrite the source refreshes
the height of `node` and then of `node->right`, which by then is the former
`nodeRight->left`; the height of `nodeRight` itself is left as it was.  The
result is `none` when `node->right` is `nullptr` (`nodeRight->left` is read). -/
def leftRotate {α : Type} (node : Node α) (self : Self) : Option (Node α × Self) :=
  match node with
  | .null => some (.null, self)
  | .mk a l nodeRight h v =>
    match nodeRight with
    | .null => none
    | .mk ra nodeRightLeft rr rh rv =>
      -- nodeRight->left = node; node->right = nodeRightLeft; updateNodeHeight(node)
      let node1 := updateNodeHeight (.mk a l nodeRightLeft h v)
      -- updateNodeHeight(node->right)
      let node2 := Node.mk a l (updateNodeHeight nodeRightLeft) (heightOfNode node1) v
      let self1 := if self.m_root = some a then { self with m_root := some ra } else self
      some (.mk ra node2 rr rh rv, self1)

/-- Method `AVL::rightRotate`.  The result is `none` when `node->left` is
`nullptr` (`nodeLeft->right` is read). -/
def rightRotate {α : Type} (node : Node α) (self : Self) : Option (Node α × Self) :=
  match node with
  | .null => some (.null, self)
  | .mk a nodeLeft r h v =>
    match nodeLeft with
    | .null => none
    | .mk la ll nodeLeftRight lh lv =>
      -- nodeLeft->right = node; node->left = nodeLeftRight; updateNodeHeight(node)
      let node1 := updateNodeHeight (.mk a nodeLeftRight r h v)
      -- updateNodeHeight(nodeLeft)
      let nodeLeft1 := updateNodeHeight (.mk la ll node1 lh lv)
      let self1 := if self.m_root = some a then { self with m_root := some la } else self
      some (nodeLeft1, self1)

/-- Method `AVL::makeTreeBalanced`.  The four tests of the source are grouped by the
sign of `balance`; `node->left->value` (resp. `node->right->value`) is read
exactly when `balance > 1` (resp. `balance < -1`). -/
def makeTreeBalanced {α : Type} [LinearOrder α] (node : Node α) (balance : Int) (value : α)
    (self : Self) : Option (Node α × Self) :=
  match node with
  | .null => if balance > 1 ∨ balance < -1 then none else some (.null, self)
  | .mk a l r h x =>
    if balance > 1 then
      match l with
      | .null => none
      | .mk _ _ _ _ lv =>
        if value < lv then rightRotate (.mk a l r h x) self
        else if value > lv then
          (leftRotate l self).bind fun p => rightRotate (.mk a p.1 r h x) p.2
        else some (.mk a l r h x, self)
    else if balance < -1 then
      match r with
      | .null => none
      | .mk _ _ _ _ rv =>
        if value > rv then leftRotate (.mk a l r h x) self
        else if value < rv then
          (rightRotate r self).bind fun p => leftRotate (.mk a l p.1 h x) p.2
        else some (.mk a l r h x, self)
    else some (.mk a l r h x, self)

/-- Lines 184-189 of `doInsert`: what follows the recursive call. -/
def doInsertTail {α : Type} [LinearOrder α] (node : Node α) (value : α) (self : Self) :
    Option (Node α × Self) :=
  let node1 := updateNodeHeight node
  let balance := getBalance node1
  if |balance| > 1 then makeTreeBalanced node1 balance value self
  else some (node1, self)

/-- Method `AVL::doInsert`; `fresh` is the address `new Node(value)` returns. -/
def doInsert {α : Type} [LinearOrder α] (fresh : Nat) (value : α) :
    Node α → Self → Option (Node α × Self)
  | .null, self =>
    some (.mk fresh .null .null 1 value,
      if self.m_size = 0 then { self with m_root := some fresh } else self)
  | .mk a l r h x, self =>
    if value > x then
      (doInsert fresh value r self).bind fun p => doInsertTail (.mk a l p.1 h x) value p.2
    else if value < x then
      (doInsert fresh value l self).bind fun p => doInsertTail (.mk a p.1 r h x) value p.2
    else some (.mk a l r h x, { self with m_size := decSize self.m_size })

/-- Method `AVL::getMin`. -/
def getMin {α : Type} : Node α → Node α
  | .null => .null
  | .mk a l r h v =>
    match l with
    | .null => .mk a l r h v
    | .mk _ _ _ _ _ => getMin l

/-- Method `AVL::getMax`. -/
def getMax {α : Type} : Node α → Node α
  | .null => .null
  | .mk a l r h v =>
    match r with
    | .null => .mk a l r h v
    | .mk _ _ _ _ _ => getMax r

/-- Lines 218-234 of `removeNode`: height update and rebalancing of `node`. -/
def removeNodeTail {α : Type} (node : Node α) (self : Self) : Option (Node α × Self) :=
  match updateNodeHeight node with
  | .null => some (.null, self)
  | .mk a l r h x =>
    let balance := getBalance (.mk a l r h x)
    if balance > 1 then
      if getBalance l ≥ 0 then rightRotate (.mk a l r h x) self
      else (leftRotate l self).bind fun p => rightRotate (.mk a p.1 r h x) p.2
    else if balance < -1 then
      if getBalance r ≤ 0 then leftRotate (.mk a l r h x) self
      else (rightRotate r self).bind fun p => leftRotate (.mk a l p.1 h x) p.2
    else some (.mk a l r h x, self)

/-- Method `AVL::removeNode`. -/
def removeNode {α : Type} [LinearOrder α] (value : α) :
    Node α → Self → Option (Node α × Self)
  | .null, self => some (.null, self)
  | .mk a l r h x, self =>
    if value > x then
      (removeNode value r self).bind fun p => removeNodeTail (.mk a l p.1 h x) p.2
    else if value < x then
      (removeNode value l self).bind fun p => removeNodeTail (.mk a p.1 r h x) p.2
    else
      match l with
      | .null => removeNodeTail r self
      | .mk _ _ _ _ _ =>
        match r with
        | .null => removeNodeTail l self
        | .mk _ _ _ _ _ =>
          match getMin r with
          | .null => none
          | .mk _ _ _ _ sv =>
            (removeNode sv r self).bind fun p => removeNodeTail (.mk a l p.1 h sv) p.2

/-- Method `AVL::insert`: `doInsert(m_root, val)` with its result discarded, then
`++m_size`.  The tree of the object afterwards is whatever `m_root` points to
in the heap region `doInsert` worked on. -/
def insert {α : Type} [LinearOrder α] (t : AVL α) (val : α) : Option (AVL α) :=
  (doInsert (freshAddr t.m_root) val t.m_root ⟨addrOf t.m_root, t.m_size⟩).map fun p =>
    ⟨deref p.2.m_root p.1, incSize p.2.m_size⟩

/-- Method `AVL::remove`: `m_root = removeNode(m_root, val); --m_size;`. -/
def remove {α : Type} [LinearOrder α] (t : AVL α) (val : α) : Option (AVL α) :=
  (removeNode val t.m_root ⟨addrOf t.m_root, t.m_size⟩).map fun p =>
    ⟨p.1, decSize p.2.m_size⟩

/-- Method `AVL::clear`. -/
def clear {α : Type} (_t : AVL α) : AVL α := ⟨.null, 0⟩

/-- Method `AVL::doInorder`, as the list of values handed to the visitor. -/
def doInorder {α : Type} : Node α → List α
  | .null => []
  | .mk _ l r _ v => doInorder l ++ v :: doInorder r

/-- Method `AVL::inorderTraverse`. -/
def inorderTraverse {α : Type} (t : AVL α) : List α := doInorder t.m_root

/-- Method `AVL::getNode`. -/
def getNode {α : Type} [LinearOrder α] (value : α) : Node α → Node α
  | .null => .null
  | .mk a l r h v =>
    if v ≠ value then
      if value > v then getNode value r else getNode value l
    else .mk a l r h v

/-- Method `AVL::search`: the pointer returned by `getNode` converted to `bool`. -/
def search {α : Type} [LinearOrder α] (t : AVL α) (value : α) : Bool :=
  match getNode value t.m_root with
  | .null => false
  | .mk _ _ _ _ _ => true

/-- Method `AVL::min`. -/
def min {α : Type} (t : AVL α) : Except Exn α :=
  if empty t then .error .logic_error
  else
    match getMin t.m_root with
    | .null => .error .nullDeref
    | .mk _ _ _ _ v => .ok v

/-- Method `AVL::max`. -/
def max {α : Type} (t : AVL α) : Except Exn α :=
  if empty t then .error .logic_error
  else
    match getMax t.m_root with
    | .null => .error .nullDeref
    | .mk _ _ _ _ v => .ok v

/-! ## Predicates on trees -/

/-- Number of live nodes. -/
def count {α : Type} : Node α → Nat
  | .null => 0
  | .mk _ l r _ _ => count l + 1 + count r

/-- Addresses of the live nodes, in in-order. -/
def addrs {α : Type} : Node α → List Nat
  | .null => []
  | .mk a l r _ _ => addrs l ++ a :: addrs r

/-- Actual height `H`: number of nodes on the longest downward path, 0 for
an absent subtree. -/
def H {α : Type} : Node α → Nat
  | .null => 0
  | .mk _ l r _ _ => Max.max (H l) (H r) + 1

/-- BST ordering: at every node the values of the left subtree are strictly
less, those of the right subtree strictly greater, than the node's value. -/
def BST {α : Type} [LinearOrder α] : Node α → Prop
  | .null => True
  | .mk _ l r _ v =>
    BST l ∧ BST r ∧ (∀ x ∈ doInorder l, x < v) ∧ (∀ x ∈ doInorder r, v < x)

/-- Exact cached heights: at every node
`height == 1 + max(height(left), height(right))`. -/
def Exact {α : Type} : Node α → Prop
  | .null => True
  | .mk _ l r h _ =>
    Exact l ∧ Exact r ∧ h = Max.max (heightOfNode l) (heightOfNode r) + 1

/-- AVL balance on the cached heights: every balance factor is in `[-1, 1]`. -/
def Balanced {α : Type} : Node α → Prop
  | .null => True
  | .mk a l r h v =>
    Balanced l ∧ Balanced r ∧
      -1 ≤ getBalance (.mk a l r h v) ∧ getBalance (.mk a l r h v) ≤ 1

/-- AVL balance on the actual heights: `|H(left) − H(right)| ≤ 1` at every
node. -/
def HBalanced {α : Type} : Node α → Prop
  | .null => True
  | .mk _ l r _ _ =>
    HBalanced l ∧ HBalanced r ∧ H l ≤ H r + 1 ∧ H r ≤ H l + 1

/-- Every cached height is at least 1 (a node is created with height 1 and
every later assignment is `max(..) + 1`). -/
def PosHeights {α : Type} : Node α → Prop
  | .null => True
  | .mk _ l r h _ => PosHeights l ∧ PosHeights r ∧ 1 ≤ h

/-- Well-formed object: BST ordering, exact cached heights, AVL balance and
`m_size` equal to the node count; `m_size` is a value of `size_t`, and
distinct live nodes have distinct addresses. -/
def WellFormed {α : Type} [LinearOrder α] (t : AVL α) : Prop :=
  BST t.m_root ∧ Exact t.m_root ∧ Balanced t.m_root ∧ t.m_size = count t.m_root ∧
    t.m_size < SIZE_MOD ∧ (addrs t.m_root).Nodup

instance decBST {α : Type} [LinearOrder α] : (t : Node α) → Decidable (BST t)
  | .null => isTrue trivial
  | .mk _ l r _ v =>
    have := decBST l
    have := decBST r
    inferInstanceAs (Decidable
      (BST l ∧ BST r ∧ (∀ x ∈ doInorder l, x < v) ∧ (∀ x ∈ doInorder r, v < x)))

instance decExact {α : Type} : (t : Node α) → Decidable (Exact t)
  | .null => isTrue trivial
  | .mk _ l r h _ =>
    have := decExact l
    have := decExact r
    inferInstanceAs (Decidable
      (Exact l ∧ Exact r ∧ h = Max.max (heightOfNode l) (heightOfNode r) + 1))

instance decBalanced {α : Type} : (t : Node α) → Decidable (Balanced t)
  | .null => isTrue trivial
  | .mk a l r h v =>
    have := decBalanced l
    have := decBalanced r
    inferInstanceAs (Decidable
      (Balanced l ∧ Balanced r ∧
        -1 ≤ getBalance (.mk a l r h v) ∧ getBalance (.mk a l r h v) ≤ 1))

instance decHBalanced {α : Type} : (t : Node α) → Decidable (HBalanced t)
  | .null => isTrue trivial
  | .mk _ l r _ _ =>
    have := decHBalanced l
    have := decHBalanced r
    inferInstanceAs (Decidable
      (HBalanced l ∧ HBalanced r ∧ H l ≤ H r + 1 ∧ H r ≤ H l + 1))

instance decPosHeights {α : Type} : (t : Node α) → Decidable (PosHeights t)
  | .null => isTrue trivial
  | .mk _ l r h _ =>
    have := decPosHeights l
    have := decPosHeights r
    inferInstanceAs (Decidable (PosHeights l ∧ PosHeights r ∧ 1 ≤ h))

instance decWellFormed {α : Type} [LinearOrder α] (t : AVL α) : Decidable (WellFormed t) :=
  inferInstanceAs (Decidable (BST t.m_root ∧ Exact t.m_root ∧ Balanced t.m_root ∧
    t.m_size = count t.m_root ∧ t.m_size < SIZE_MOD ∧ (addrs t.m_root).Nodup))

/-- The tree obtained from `t` by calling `insert` on the elements of `xs` in
order. -/
def insertAll {α : Type} [LinearOrder α] (t : AVL α) (xs : List α) : Option (AVL α) :=
  xs.foldl (fun o v => o.bind fun s => insert s v) (some t)

/-- The sequence `L` with `v` put at its sorted position, or `L` itself when
`v` already occurs in it. -/
def insSorted {α : Type} [LinearOrder α] (v : α) (L : List α) : List α :=
  if v ∈ L then L else List.orderedInsert (· ≤ ·) v L

/-- The pointer `m_root` is not one of the nodes strictly below the top of `n`. -/
def RootOutside {α : Type} (m_root : Option Nat) (n : Node α) : Prop :=
  ∀ x ∈ addrs n, m_root = some x → addrOf n = some x

/-- Where `m_root` points after a call on the subtree `t` returned `t'`: to
the top of `t'` when it pointed to the top of `t`, and where it pointed
otherwise. -/
def rootAfter {α : Type} (m : Option Nat) (t t' : Node α) : Option Nat :=
  match t with
  | .null => m
  | .mk a _ _ _ _ => if m = some a then addrOf t' else m

/-- The top of `t` leans towards the side `value` belongs to: its subtree on
that side is one higher than the other one. -/
def Leans {α : Type} [LinearOrder α] (value : α) : Node α → Prop
  | .null => False
  | .mk _ l r _ x =>
    (value < x ∧ heightOfNode l = heightOfNode r + 1) ∨
      (x < value ∧ heightOfNode r = heightOfNode l + 1)

/-- States reached from the empty tree by `n` calls of `insert` and of
`remove`, every removed value being present when it is removed. -/
inductive ReachPresent {α : Type} [LinearOrder α] : AVL α → Nat → Prop where
  | init : ReachPresent empty_tree 0
  | insert {t t' : AVL α} {n : Nat} (v : α) :
      ReachPresent t n → insert t v = some t' → ReachPresent t' (n + 1)
  | remove {t t' : AVL α} {n : Nat} (v : α) :
      ReachPresent t n → v ∈ inorderTraverse t → remove t v = some t' →
      ReachPresent t' (n + 1)

/-- The object obtained from the empty tree by inserting the elements of `xs`
in order (the empty tree when one of the calls has no defined result). -/
def buildTree {α : Type} [LinearOrder α] (xs : List α) : AVL α :=
  (insertAll empty_tree xs).getD empty_tree

/-- The `while` loop of `getSuccessor` (lines 336-344): descends from `root`
to the node holding `value`, remembering in `successor` the last node left
through its left link.  Returns the final `root` and `successor`; `none`
when `root->value` is read on `nullptr`. -/
def successorLoop {α : Type} [LinearOrder α] (value : α) :
    Node α → Node α → Option (Node α × Node α)
  | .null, _ => none
  | .mk a l r h v, successor =>
    if v ≠ value then
      if value > v then successorLoop value r successor
      else successorLoop value l (.mk a l r h v)
    else some (.mk a l r h v, successor)

/-- Method `AVL::getSuccessor`. -/
def getSuccessor {α : Type} [LinearOrder α] (root : Node α) (value : α) :
    Option (Node α) :=
  match root with
  | .null => some .null
  | .mk _ _ _ _ _ =>
    match getNode value root with
    | .null => some .null
    | .mk _ _ nodeRight _ _ =>
      match nodeRight with
      | .mk _ _ _ _ _ => some (getMin nodeRight)
      | .null =>
        (successorLoop value root .null).map fun p =>
          match p.1 with
          | .null => .null
          | .mk _ _ _ _ _ => p.2

/-- Method `AVL::successorOf`: the value of the node `getSuccessor` returns,
or `value` itself when it returns `nullptr`. -/
def successorOf {α : Type} [LinearOrder α] (t : AVL α) (value : α) : Option α :=
  (getSuccessor t.m_root value).map fun res =>
    match res with
    | .null => value
    | .mk _ _ _ _ v => v

/-- The `while` loop of `getPredecessor` (lines 359-367): descends from `root`
to the node holding `value`, remembering in `predecessor` the last node left
through its right link; `none` when `root->value` is read on `nullptr`. -/
def predecessorLoop {α : Type} [LinearOrder α] (value : α) :
    Node α → Node α → Option (Node α)
  | .null, _ => none
  | .mk a l r h v, predecessor =>
    if v ≠ value then
      if value > v then predecessorLoop value r (.mk a l r h v)
      else predecessorLoop value l predecessor
    else some predecessor

/-- Method `AVL::getPredecessor`. -/
def getPredecessor {α : Type} [LinearOrder α] (root : Node α) (value : α) :
    Option (Node α) :=
  match root with
  | .null => some .null
  | .mk _ _ _ _ _ =>
    match getNode value root with
    | .null => some .null
    | .mk _ nodeLeft _ _ _ =>
      match nodeLeft with
      | .mk _ _ _ _ _ => some (getMax nodeLeft)
      | .null => predecessorLoop value root .null

/-- Method `AVL::predecessorOf`. -/
def predecessorOf {α : Type} [LinearOrder α] (t : AVL α) (value : α) : Option α :=
  (getPredecessor t.m_root value).map fun res =>
    match res with
    | .null => value
    | .mk _ _ _ _ v => v

/-- What `queue.push` adds for a child link tested by `if (tmp->left)` /
`if (tmp->right)`: the child when it exists, nothing otherwise. -/
def pushChild {α : Type} : Node α → List (Node α)
  | .null => []
  | .mk a l r h v => [.mk a l r h v]

/-- The `while (!queue.empty())` loop of `doLevelorder`, as the list of the
values handed to the visitor.  Every iteration dequeues one node, so `fuel`
bounds the number of iterations; the result is `none` when the fuel runs out
before the queue is empty, or when a queued pointer is `nullptr`. -/
def levelLoop {α : Type} : Nat → List (Node α) → Option (List α)
  | _, [] => some []
  | 0, _ :: _ => none
  | fuel + 1, tmp :: queue =>
    match tmp with
    | .null => none
    | .mk _ l r _ v =>
      (levelLoop fuel (queue ++ pushChild l ++ pushChild r)).map fun vs => v :: vs

/-- Method `AVL::doLevelorder`; the loop runs once per node of the tree. -/
def doLevelorder {α : Type} (node : Node α) : Option (List α) :=
  match node with
  | .null => some []
  | .mk a l r h v => levelLoop (count (.mk a l r h v)) [.mk a l r h v]

/-- Method `AVL::levelorderTraverse`. -/
def levelorderTraverse {α : Type} (t : AVL α) : Option (List α) := doLevelorder t.m_root

/-- Copy constructor `AVL(const AVL& other)`: the empty tree, then `insert` of
every value `other.levelorderTraverse` visits, in that order. -/
def copy {α : Type} [LinearOrder α] (other : AVL α) : Option (AVL α) :=
  (levelorderTraverse other).bind fun vs => insertAll empty_tree vs

/-- Shape of a tree with the value at every position: a tree without the
addresses and the cached heights. -/
inductive Shape (α : Type) where
  | nil : Shape α
  | node (left : Shape α) (value : α) (right : Shape α) : Shape α
  deriving DecidableEq

/-- The shape of the tree below a pointer. -/
def shape {α : Type} : Node α → Shape α
  | .null => .nil
  | .mk _ l r _ v => .node (shape l) v (shape r)

/-- Height of a shape: number of nodes on its longest downward path. -/
def sHeight {α : Type} : Shape α → Nat
  | .nil => 0
  | .node l _ r => Max.max (sHeight l) (sHeight r) + 1

/-- AVL balance of a shape: the heights of the two subtrees of every node
differ by at most 1. -/
def sBalanced {α : Type} : Shape α → Prop
  | .nil => True
  | .node l _ r =>
    sBalanced l ∧ sBalanced r ∧ sHeight l ≤ sHeight r + 1 ∧ sHeight r ≤ sHeight l + 1

/-- Insertion of a value into a shape by the comparisons of `doInsert`, with
no rebalancing: a new leaf where the descent ends, nothing when the value is
met. -/
def sInsert {α : Type} [LinearOrder α] (value : α) : Shape α → Shape α
  | .nil => .node .nil value .nil
  | .node l x r =>
    if value > x then .node l x (sInsert value r)
    else if value < x then .node (sInsert value l) x r
    else .node l x r

/-- Values of the nodes at depth `d` (the top has depth 0), from left to
right. -/
def levelValues {α : Type} : Nat → Node α → List α
  | _, .null => []
  | 0, .mk _ _ _ _ v => [v]
  | d + 1, .mk _ l r _ _ => levelValues d l ++ levelValues d r

/-- The part of a tree that breadth-first order has reached once all the
nodes of depth less than `d` and the first `k` nodes of depth `d` have been
visited. -/
def truncNode {α : Type} : Nat → Nat → Node α → Node α
  | _, _, .null => .null
  | 0, k, .mk a _ _ h v => if k = 0 then .null else .mk a .null .null h v
  | d + 1, k, .mk a l r h v =>
    .mk a (truncNode d k l) (truncNode d (k - (levelValues d l).length) r) h v

/-- Breadth-first order: the values at depth 0, then at depth 1, and so on. -/
def breadthFirst {α : Type} (t : Node α) : List α :=
  (List.range (H t)).flatMap fun d => levelValues d t

/-- The existing children of the nodes of a queue, in queue order. -/
def nextQueue {α : Type} (q : List (Node α)) : List (Node α) :=
  q.flatMap fun n =>
    match n with
    | .null => []
    | .mk _ l r _ _ => pushChild l ++ pushChild r

/-- Total number of nodes below the pointers of a queue. -/
def queueCount {α : Type} (q : List (Node α)) : Nat := (q.map count).sum

/-- The value stored in the node a pointer designates; `none` for `nullptr`. -/
def valueOf {α : Type} : Node α → Option α
  | .null => none
  | .mk _ _ _ _ v => some v

/-- States reached from the freshly constructed empty tree by calls of
`insert` and `remove` with arbitrary arguments. -/
inductive Reach {α : Type} [LinearOrder α] : AVL α → Prop where
  | init : Reach empty_tree
  | insert {t t' : AVL α} (v : α) : Reach t → insert t v = some t' → Reach t'
  | remove {t t' : AVL α} (v : α) : Reach t → remove t v = some t' → Reach t'

variable {α : Type}

/-! ## Computation rules -/

theorem heightOfNode_null : heightOfNode (.null : Node α) = 0 := rfl

theorem heightOfNode_mk (a : Nat) (l r : Node α) (h : Int) (v : α) :
    heightOfNode (.mk a l r h v) = h := rfl

theorem getBalance_mk (a : Nat) (l r : Node α) (h : Int) (v : α) :
    getBalance (.mk a l r h v) = heightOfNode l - heightOfNode r := rfl

theorem updateNodeHeight_mk (a : Nat) (l r : Node α) (h : Int) (v : α) :
    updateNodeHeight (.mk a l r h v) =
      .mk a l r (Max.max (heightOfNode l) (heightOfNode r) + 1) v := rfl

/-! ## Rotations keep the in-order sequence -/

theorem doInorder_updateNodeHeight (t : Node α) :
    doInorder (updateNodeHeight t) = doInorder t := by
  cases t <;> rfl

theorem addrs_updateNodeHeight (t : Node α) : addrs (updateNodeHeight t) = addrs t := by
  cases t <;> rfl

theorem addrOf_updateNodeHeight (t : Node α) : addrOf (updateNodeHeight t) = addrOf t := by
  cases t <;> rfl

theorem leftRotate_some {n : Node α} {s : Self} {p : Node α × Self}
    (h : leftRotate n s = some p) :
    doInorder p.1 = doInorder n ∧ addrs p.1 = addrs n ∧ p.2.m_size = s.m_size := by
  cases n with
  | null => simp [leftRotate] at h; subst h; simp
  | mk a l r hh v =>
    cases r with
    | null => simp [leftRotate] at h
    | mk ra rl rr rh rv =>
      simp only [leftRotate, Option.some.injEq] at h
      subst h
      refine ⟨?_, ?_, ?_⟩
      · simp [doInorder, doInorder_updateNodeHeight]
      · simp [addrs, addrs_updateNodeHeight]
      · dsimp only; split <;> rfl

theorem rightRotate_some {n : Node α} {s : Self} {p : Node α × Self}
    (h : rightRotate n s = some p) :
    doInorder p.1 = doInorder n ∧ addrs p.1 = addrs n ∧ p.2.m_size = s.m_size := by
  cases n with
  | null => simp [rightRotate] at h; subst h; simp
  | mk a l r hh v =>
    cases l with
    | null => simp [rightRotate] at h
    | mk la ll lr lh lv =>
      simp only [rightRotate, Option.some.injEq] at h
      subst h
      refine ⟨?_, ?_, ?_⟩
      · simp [doInorder, updateNodeHeight]
      · simp [addrs, updateNodeHeight]
      · dsimp only; split <;> rfl

theorem makeTreeBalanced_some [LinearOrder α] {n : Node α} {b : Int} {value : α} {s : Self}
    {p : Node α × Self} (h : makeTreeBalanced n b value s = some p) :
    doInorder p.1 = doInorder n ∧ addrs p.1 = addrs n ∧ p.2.m_size = s.m_size := by
  cases n with
  | null =>
    simp only [makeTreeBalanced] at h
    split_ifs at h
    cases h
    exact ⟨rfl, rfl, rfl⟩
  | mk a l r hh v =>
    simp only [makeTreeBalanced] at h
    split_ifs at h with h1 h2
    · cases l with
      | null => simp at h
      | mk la ll lr lh lv =>
        simp only at h
        split_ifs at h with h3 h4
        · exact rightRotate_some h
        · obtain ⟨q, hq, hq2⟩ := Option.bind_eq_some.mp h
          have e1 := leftRotate_some hq
          have e2 := rightRotate_some hq2
          refine ⟨?_, ?_, ?_⟩
          · rw [e2.1]; simp only [doInorder, e1.1]
          · rw [e2.2.1]; simp only [addrs, e1.2.1]
          · rw [e2.2.2, e1.2.2]
        · cases h; simp
    · cases r with
      | null => simp at h
      | mk ra rl rr rh rv =>
        simp only at h
        split_ifs at h with h3 h4
        · exact leftRotate_some h
        · obtain ⟨q, hq, hq2⟩ := Option.bind_eq_some.mp h
          have e1 := rightRotate_some hq
          have e2 := leftRotate_some hq2
          refine ⟨?_, ?_, ?_⟩
          · rw [e2.1]; simp only [doInorder, e1.1]
          · rw [e2.2.1]; simp only [addrs, e1.2.1]
          · rw [e2.2.2, e1.2.2]
        · cases h; simp
    · cases h; simp

theorem doInsertTail_some [LinearOrder α] {n : Node α} {value : α} {s : Self}
    {p : Node α × Self} (h : doInsertTail n value s = some p) :
    doInorder p.1 = doInorder n ∧ addrs p.1 = addrs n ∧ p.2.m_size = s.m_size := by
  unfold doInsertTail at h
  simp only at h
  split_ifs at h with h1
  · have e := makeTreeBalanced_some h
    simpa [doInorder_updateNodeHeight, addrs_updateNodeHeight] using e
  · cases h; simp [doInorder_updateNodeHeight, addrs_updateNodeHeight]

theorem removeNodeTail_some {n : Node α} {s : Self}
    {p : Node α × Self} (h : removeNodeTail n s = some p) :
    doInorder p.1 = doInorder n ∧ addrs p.1 = addrs n ∧ p.2.m_size = s.m_size := by
  cases n with
  | null => simp [removeNodeTail, updateNodeHeight] at h; subst h; simp
  | mk a l r hh v =>
    simp only [removeNodeTail, updateNodeHeight] at h
    split_ifs at h with h1 h2 h3 h4
    · have e := rightRotate_some h
      simpa [doInorder, addrs] using e
    · obtain ⟨q, hq, hq2⟩ := Option.bind_eq_some.mp h
      have e1 := leftRotate_some hq
      have e2 := rightRotate_some hq2
      refine ⟨?_, ?_, ?_⟩
      · rw [e2.1]; simp only [doInorder, e1.1]
      · rw [e2.2.1]; simp only [addrs, e1.2.1]
      · rw [e2.2.2, e1.2.2]
    · have e := leftRotate_some h
      simpa [doInorder, addrs] using e
    · obtain ⟨q, hq, hq2⟩ := Option.bind_eq_some.mp h
      have e1 := rightRotate_some hq
      have e2 := leftRotate_some hq2
      refine ⟨?_, ?_, ?_⟩
      · rw [e2.1]; simp only [doInorder, e1.1]
      · rw [e2.2.1]; simp only [addrs, e1.2.1]
      · rw [e2.2.2, e1.2.2]
    · cases h; simp [doInorder, addrs]

/-! ## BST ordering and the in-order sequence -/

theorem BST_iff_pairwise [LinearOrder α] (t : Node α) :
    BST t ↔ (doInorder t).Pairwise (· < ·) := by
  induction t with
  | null => simp [BST, doInorder]
  | mk a l r h v ihl ihr =>
    simp only [BST, doInorder, List.pairwise_append, List.pairwise_cons, ihl, ihr,
      List.mem_cons]
    constructor
    · rintro ⟨h1, h2, h3, h4⟩
      refine ⟨h1, ⟨h4, h2⟩, ?_⟩
      intro x hx y hy
      rcases hy with rfl | hy
      · exact h3 x hx
      · exact lt_trans (h3 x hx) (h4 y hy)
    · rintro ⟨h1, ⟨h4, h2⟩, h5⟩
      exact ⟨h1, h2, fun x hx => h5 x hx v (Or.inl rfl), h4⟩

theorem orderedInsert_append_of_lt [LinearOrder α] (v : α) (A B : List α)
    (h : ∀ x ∈ A, x < v) :
    List.orderedInsert (· ≤ ·) v (A ++ B) = A ++ List.orderedInsert (· ≤ ·) v B := by
  induction A with
  | nil => rfl
  | cons a A ih =>
    have ha : ¬ v ≤ a := not_le.mpr (h a (List.mem_cons_self _ _))
    have ih' := ih (fun x hx => h x (List.mem_cons_of_mem _ hx))
    simp only [List.cons_append, List.orderedInsert, ha, if_false]
    exact congrArg (List.cons a) ih'

theorem orderedInsert_append_cons_of_le [LinearOrder α] (v x : α) (A B : List α)
    (h : v ≤ x) :
    List.orderedInsert (· ≤ ·) v (A ++ x :: B) =
      List.orderedInsert (· ≤ ·) v A ++ x :: B := by
  induction A with
  | nil => simp [List.orderedInsert, h]
  | cons a A ih =>
    simp only [List.cons_append, List.orderedInsert]
    split_ifs
    · rfl
    · exact congrArg (List.cons a) ih

theorem insSorted_right [LinearOrder α] (v x : α) (A B : List α)
    (hA : ∀ y ∈ A, y < x) (hx : x < v) :
    insSorted v (A ++ x :: B) = A ++ x :: insSorted v B := by
  have hvA : v ∉ A := fun hm => lt_asymm (hA v hm) hx
  have hvx : v ≠ x := ne_of_gt hx
  unfold insSorted
  by_cases hB : v ∈ B
  · simp [hB]
  · have : v ∉ A ++ x :: B := by simp [hvA, hvx, hB]
    rw [if_neg this, if_neg hB,
      orderedInsert_append_of_lt v A (x :: B) (fun y hy => lt_trans (hA y hy) hx)]
    simp [List.orderedInsert, not_le.mpr hx]

theorem insSorted_left [LinearOrder α] (v x : α) (A B : List α)
    (hB : ∀ y ∈ B, x < y) (hx : v < x) :
    insSorted v (A ++ x :: B) = insSorted v A ++ x :: B := by
  have hvB : v ∉ B := fun hm => lt_asymm (hB v hm) hx
  have hvx : v ≠ x := ne_of_lt hx
  unfold insSorted
  by_cases hA : v ∈ A
  · simp [hA]
  · have : v ∉ A ++ x :: B := by simp [hA, hvx, hvB]
    rw [if_neg this, if_neg hA, orderedInsert_append_cons_of_le v x A B (le_of_lt hx)]

theorem doInsert_inorder [LinearOrder α] (fresh : Nat) (value : α) (t : Node α) (s : Self)
    (p : Node α × Self) (h : doInsert fresh value t s = some p) (hb : BST t) :
    doInorder p.1 = insSorted value (doInorder t) := by
  induction t generalizing s p with
  | null =>
    simp only [doInsert, Option.some.injEq] at h
    subst h
    simp [doInorder, insSorted]
  | mk a l r hh x ihl ihr =>
    obtain ⟨hbl, hbr, hl, hr⟩ := hb
    unfold doInsert at h
    split_ifs at h with h1 h2
    · obtain ⟨q, hq, hq2⟩ := Option.bind_eq_some.mp h
      rw [(doInsertTail_some hq2).1]
      simp only [doInorder, ihr s q hq hbr]
      exact (insSorted_right value x _ _ hl h1).symm
    · obtain ⟨q, hq, hq2⟩ := Option.bind_eq_some.mp h
      rw [(doInsertTail_some hq2).1]
      simp only [doInorder, ihl s q hq hbl]
      exact (insSorted_left value x _ _ hr h2).symm
    · have hx : value = x := le_antisymm (not_lt.mp h1) (not_lt.mp h2)
      cases h
      simp [doInorder, insSorted, hx]

theorem insSorted_pairwise [LinearOrder α] (v : α) (L : List α) (h : L.Pairwise (· < ·)) :
    (insSorted v L).Pairwise (· < ·) := by
  unfold insSorted
  split_ifs with hm
  · exact h
  · induction L with
    | nil => simp
    | cons a L ih =>
      simp only [List.mem_cons, not_or] at hm
      rw [List.pairwise_cons] at h
      simp only [List.orderedInsert]
      split_ifs with hle
      · have hlt : v < a := lt_of_le_of_ne hle hm.1
        refine List.Pairwise.cons ?_ (List.Pairwise.cons h.1 h.2)
        intro y hy
        rcases List.mem_cons.mp hy with rfl | hy
        · exact hlt
        · exact lt_trans hlt (h.1 y hy)
      · refine List.Pairwise.cons ?_ (ih h.2 hm.2)
        intro y hy
        rcases (List.mem_orderedInsert _).mp hy with rfl | hy
        · exact not_le.mp hle
        · exact h.1 y hy

theorem insSorted_length [LinearOrder α] (v : α) (L : List α) :
    (insSorted v L).length = if v ∈ L then L.length else L.length + 1 := by
  unfold insSorted
  split_ifs <;> simp [List.orderedInsert_length]

theorem mem_insSorted [LinearOrder α] (v x : α) (L : List α) :
    x ∈ insSorted v L ↔ x = v ∨ x ∈ L := by
  unfold insSorted
  split_ifs with h
  · constructor
    · exact Or.inr
    · rintro (rfl | h') <;> assumption
  · exact List.mem_orderedInsert _

/-! ## What `doInsert` does to `m_root` and `m_size` -/

theorem root_ite_self (m a : Option Nat) : m = if m = a then a else m := by
  split_ifs with h
  · exact h
  · rfl

theorem leftRotate_root {n : Node α} {s : Self} {p : Node α × Self}
    (h : leftRotate n s = some p) :
    p.2.m_root = if s.m_root = addrOf n then addrOf p.1 else s.m_root := by
  cases n with
  | null => simp [leftRotate] at h; subst h; exact root_ite_self _ _
  | mk a l r hh v =>
    cases r with
    | null => simp [leftRotate] at h
    | mk ra rl rr rh rv =>
      simp only [leftRotate, Option.some.injEq] at h
      subst h
      simp only [addrOf]
      split_ifs <;> rfl

theorem rightRotate_root {n : Node α} {s : Self} {p : Node α × Self}
    (h : rightRotate n s = some p) :
    p.2.m_root = if s.m_root = addrOf n then addrOf p.1 else s.m_root := by
  cases n with
  | null => simp [rightRotate] at h; subst h; exact root_ite_self _ _
  | mk a l r hh v =>
    cases l with
    | null => simp [rightRotate] at h
    | mk la ll lr lh lv =>
      simp only [rightRotate, Option.some.injEq] at h
      subst h
      simp only [addrOf, updateNodeHeight]
      split_ifs <;> rfl

theorem rootOutside_left {m : Option Nat} {a : Nat} {l r : Node α} {hh : Int} {v : α}
    (ho : RootOutside m (.mk a l r hh v)) (hnd : (addrs (.mk a l r hh v)).Nodup) :
    ∀ x ∈ addrs l, m ≠ some x := by
  intro x hx hm
  have h1 := ho x (by simp [addrs, hx]) hm
  simp only [addrOf, Option.some.injEq] at h1
  subst h1
  simp only [addrs] at hnd
  have := (List.nodup_append.mp hnd).2.2
  exact List.disjoint_left.mp this hx (List.mem_cons_self _ _)

theorem rootOutside_right {m : Option Nat} {a : Nat} {l r : Node α} {hh : Int} {v : α}
    (ho : RootOutside m (.mk a l r hh v)) (hnd : (addrs (.mk a l r hh v)).Nodup) :
    ∀ x ∈ addrs r, m ≠ some x := by
  intro x hx hm
  have h1 := ho x (by simp [addrs, hx]) hm
  simp only [addrOf, Option.some.injEq] at h1
  subst h1
  simp only [addrs] at hnd
  have := (List.nodup_cons.mp (List.nodup_append.mp hnd).2.1).1
  exact this hx

theorem makeTreeBalanced_root [LinearOrder α] {n : Node α} {b : Int} {value : α} {s : Self}
    {p : Node α × Self} (h : makeTreeBalanced n b value s = some p)
    (hnd : (addrs n).Nodup) (ho : RootOutside s.m_root n) :
    p.2.m_root = if s.m_root = addrOf n then addrOf p.1 else s.m_root := by
  cases n with
  | null =>
    simp only [makeTreeBalanced] at h
    split_ifs at h
    cases h
    exact root_ite_self _ _
  | mk a l r hh v =>
    have hl := rootOutside_left ho hnd
    have hr := rootOutside_right ho hnd
    simp only [makeTreeBalanced] at h
    split_ifs at h with h1 h2
    · cases l with
      | null => simp at h
      | mk la ll lr lh lv =>
        simp only at h
        split_ifs at h with h3 h4
        · exact rightRotate_root h
        · obtain ⟨q, hq, hq2⟩ := Option.bind_eq_some.mp h
          have e1 := leftRotate_root hq
          have e2 := rightRotate_root hq2
          have hne : s.m_root ≠ some la := hl la (by simp [addrs])
          rw [if_neg (by simpa [addrOf] using hne)] at e1
          rw [e2, e1]
          simp [addrOf]
        · cases h; exact root_ite_self _ _
    · cases r with
      | null => simp at h
      | mk ra rl rr rh rv =>
        simp only at h
        split_ifs at h with h3 h4
        · exact leftRotate_root h
        · obtain ⟨q, hq, hq2⟩ := Option.bind_eq_some.mp h
          have e1 := rightRotate_root hq
          have e2 := leftRotate_root hq2
          have hne : s.m_root ≠ some ra := hr ra (by simp [addrs])
          rw [if_neg (by simpa [addrOf] using hne)] at e1
          rw [e2, e1]
          simp [addrOf]
        · cases h; exact root_ite_self _ _
    · cases h; exact root_ite_self _ _

theorem doInsertTail_root [LinearOrder α] {n : Node α} {value : α} {s : Self}
    {p : Node α × Self} (h : doInsertTail n value s = some p)
    (hnd : (addrs n).Nodup) (ho : RootOutside s.m_root n) :
    p.2.m_root = if s.m_root = addrOf n then addrOf p.1 else s.m_root := by
  unfold doInsertTail at h
  simp only at h
  split_ifs at h with h1
  · have e := makeTreeBalanced_root h (by simpa [addrs_updateNodeHeight] using hnd)
      (by simpa [RootOutside, addrs_updateNodeHeight, addrOf_updateNodeHeight] using ho)
    simpa [addrOf_updateNodeHeight] using e
  · cases h
    simp only [addrOf_updateNodeHeight]
    exact root_ite_self _ _

theorem doInsert_addrs [LinearOrder α] (fresh : Nat) (value : α) (t : Node α) (s : Self)
    (p : Node α × Self) (h : doInsert fresh value t s = some p) :
    (addrs p.1 = addrs t ∧ p.2.m_size = decSize s.m_size ∧ value ∈ doInorder t) ∨
      (List.Perm (addrs p.1) (fresh :: addrs t) ∧ p.2.m_size = s.m_size) := by
  induction t generalizing s p with
  | null =>
    simp only [doInsert, Option.some.injEq] at h
    subst h
    right
    refine ⟨by simp [addrs], ?_⟩
    dsimp only; split <;> rfl
  | mk a l r hh x ihl ihr =>
    unfold doInsert at h
    split_ifs at h with h1 h2
    · obtain ⟨q, hq, hq2⟩ := Option.bind_eq_some.mp h
      have e := doInsertTail_some hq2
      rw [e.2.1, e.2.2]
      rcases ihr s q hq with ⟨e1, e2, e3⟩ | ⟨e1, e2⟩
      · left; simp [addrs, doInorder, e1, e2, e3]
      · right
        refine ⟨?_, e2⟩
        simp only [addrs]
        refine (List.Perm.append_left _ (List.Perm.cons a e1)).trans ?_
        have := @List.perm_middle _ fresh (addrs l ++ [a]) (addrs r)
        simpa using this
    · obtain ⟨q, hq, hq2⟩ := Option.bind_eq_some.mp h
      have e := doInsertTail_some hq2
      rw [e.2.1, e.2.2]
      rcases ihl s q hq with ⟨e1, e2, e3⟩ | ⟨e1, e2⟩
      · left; simp [addrs, doInorder, e1, e2, e3]
      · right
        refine ⟨?_, e2⟩
        simp only [addrs]
        refine (List.Perm.append_right _ e1).trans ?_
        simp
    · have hx : value = x := le_antisymm (not_lt.mp h1) (not_lt.mp h2)
      cases h
      left
      simp [doInorder, hx]

theorem doInsert_nodup [LinearOrder α] {fresh : Nat} {value : α} {t : Node α} {s : Self}
    {p : Node α × Self} (h : doInsert fresh value t s = some p)
    (hnd : (addrs t).Nodup) (hf : fresh ∉ addrs t) :
    (addrs p.1).Nodup ∧ ∀ x ∈ addrs p.1, x = fresh ∨ x ∈ addrs t := by
  rcases doInsert_addrs fresh value t s p h with ⟨e1, -, -⟩ | ⟨e1, -⟩
  · rw [e1]; exact ⟨hnd, fun x hx => Or.inr hx⟩
  · refine ⟨(List.Perm.nodup_iff e1).mpr (List.nodup_cons.mpr ⟨hf, hnd⟩), ?_⟩
    intro x hx
    simpa using (List.Perm.mem_iff e1).mp hx

theorem doInsert_root [LinearOrder α] (fresh : Nat) (value : α) (t : Node α) (s : Self)
    (p : Node α × Self) (h : doInsert fresh value t s = some p)
    (hsz : s.m_size ≠ 0) (hnd : (addrs t).Nodup) (hf : fresh ∉ addrs t)
    (ho : RootOutside s.m_root t) (hsf : s.m_root ≠ some fresh) :
    p.2.m_root = rootAfter s.m_root t p.1 := by
  induction t generalizing s p with
  | null =>
    simp only [doInsert, Option.some.injEq] at h
    subst h
    simp [hsz, rootAfter]
  | mk a l r hh x ihl ihr =>
    have hl := rootOutside_left ho hnd
    have hr := rootOutside_right ho hnd
    have hnd' := hnd
    simp only [addrs, List.nodup_append, List.nodup_cons] at hnd'
    obtain ⟨hndl, ⟨har, hndr⟩, hdisj⟩ := hnd'
    have hal : a ∉ addrs l := fun hm => List.disjoint_left.mp hdisj hm (List.mem_cons_self _ _)
    simp only [addrs, List.mem_append, List.mem_cons, not_or] at hf
    have hgoal : ∀ q : Node α × Self, q.2.m_root = s.m_root →
        (p.2.m_root = if q.2.m_root = some a then addrOf p.1 else q.2.m_root) →
        p.2.m_root = rootAfter s.m_root (Node.mk a l r hh x) p.1 := by
      intro q hq e
      rw [e, hq]
      rfl
    unfold doInsert at h
    split_ifs at h with h1 h2
    · obtain ⟨q, hq, hq2⟩ := Option.bind_eq_some.mp h
      have hq1 := ihr s q hq hsz hndr hf.2.2 (fun y hy hm => absurd hm (hr y hy)) hsf
      have hqr : q.2.m_root = s.m_root := by
        rw [hq1]
        cases r with
        | null => rfl
        | mk ra rl rr rh rv =>
          simp only [rootAfter]
          rw [if_neg (hr ra (by simp [addrs]))]
      obtain ⟨hqnd, hqmem⟩ := doInsert_nodup hq hndr hf.2.2
      have hnd1 : (addrs (Node.mk a l q.1 hh x)).Nodup := by
        simp only [addrs, List.nodup_append, List.nodup_cons]
        refine ⟨hndl, ⟨?_, hqnd⟩, ?_⟩
        · intro hm
          rcases hqmem a hm with e' | e'
          · exact hf.2.1 e'.symm
          · exact har e'
        · rw [List.disjoint_left]
          intro y hy hy2
          rcases List.mem_cons.mp hy2 with e' | e'
          · rw [e'] at hy; exact hal hy
          · rcases hqmem y e' with e'' | e''
            · rw [e''] at hy; exact hf.1 hy
            · exact List.disjoint_left.mp hdisj hy (List.mem_cons_of_mem _ e'')
      have ho1 : RootOutside q.2.m_root (Node.mk a l q.1 hh x) := by
        intro y hy hm
        rw [hqr] at hm
        simp only [addrs, List.mem_append, List.mem_cons] at hy
        rcases hy with hy | hy | hy
        · exact absurd hm (hl y hy)
        · rw [hy]; rfl
        · rcases hqmem y hy with e' | e'
          · rw [e'] at hm; exact absurd hm hsf
          · exact absurd hm (hr y e')
      have e := doInsertTail_root hq2 hnd1 ho1
      simp only [addrOf] at e
      exact hgoal q hqr e
    · obtain ⟨q, hq, hq2⟩ := Option.bind_eq_some.mp h
      have hq1 := ihl s q hq hsz hndl hf.1 (fun y hy hm => absurd hm (hl y hy)) hsf
      have hqr : q.2.m_root = s.m_root := by
        rw [hq1]
        cases l with
        | null => rfl
        | mk la ll lr lh lv =>
          simp only [rootAfter]
          rw [if_neg (hl la (by simp [addrs]))]
      obtain ⟨hqnd, hqmem⟩ := doInsert_nodup hq hndl hf.1
      have hnd1 : (addrs (Node.mk a q.1 r hh x)).Nodup := by
        simp only [addrs, List.nodup_append, List.nodup_cons]
        refine ⟨hqnd, ⟨har, hndr⟩, ?_⟩
        rw [List.disjoint_left]
        intro y hy hy2
        rcases hqmem y hy with e' | e'
        · rw [e'] at hy2
          rcases List.mem_cons.mp hy2 with e'' | e''
          · exact hf.2.1 e''
          · exact hf.2.2 e''
        · exact List.disjoint_left.mp hdisj e' hy2
      have ho1 : RootOutside q.2.m_root (Node.mk a q.1 r hh x) := by
        intro y hy hm
        rw [hqr] at hm
        simp only [addrs, List.mem_append, List.mem_cons] at hy
        rcases hy with hy | hy | hy
        · rcases hqmem y hy with e' | e'
          · rw [e'] at hm; exact absurd hm hsf
          · exact absurd hm (hl y e')
        · rw [hy]; rfl
        · exact absurd hm (hr y hy)
      have e := doInsertTail_root hq2 hnd1 ho1
      simp only [addrOf] at e
      exact hgoal q hqr e
    · simp only [Option.some.injEq] at h
      subst h
      simp only [rootAfter, addrOf]
      exact root_ite_self _ _

/-! ## Insertion keeps exact heights and AVL balance -/

theorem exact_height_nonneg {t : Node α} (h : Exact t) : 0 ≤ heightOfNode t := by
  induction t with
  | null => simp [heightOfNode_mk, heightOfNode_null]
  | mk a l r hh v ihl ihr =>
    obtain ⟨hl, hr, e⟩ := h
    have := ihl hl
    have := ihr hr
    simp only [heightOfNode_mk, heightOfNode_null]
    omega

theorem exact_update_eq {t : Node α} (h : Exact t) : updateNodeHeight t = t := by
  cases t with
  | null => rfl
  | mk a l r hh v => simp only [updateNodeHeight_mk]; rw [← h.2.2]

theorem exact_height_pos {a : Nat} {l r : Node α} {hh : Int} {v : α}
    (h : Exact (.mk a l r hh v)) : 1 ≤ hh := by
  have h1 := exact_height_nonneg h.1
  have h2 := exact_height_nonneg h.2.1
  have := h.2.2
  omega

theorem doInsertTail_left [LinearOrder α] (a : Nat) (l' r : Node α) (hh : Int) (x value : α)
    (s : Self) (h0 : Int) (hel : Exact l') (hbl : Balanced l') (her : Exact r)
    (hbr : Balanced r) (hbal : -1 ≤ h0 - heightOfNode r ∧ h0 - heightOfNode r ≤ 1)
    (hgrow : heightOfNode l' = h0 ∨
      (heightOfNode l' = h0 + 1 ∧ (h0 ≠ 0 → Leans value l')))
    (hv : value < x) :
    ∃ t', (doInsertTail (.mk a l' r hh x) value s).map Prod.fst = some t' ∧ Exact t' ∧
      Balanced t' ∧ (heightOfNode t' = Max.max h0 (heightOfNode r) + 1 ∨
        (heightOfNode t' = Max.max h0 (heightOfNode r) + 2 ∧ Leans value t')) := by
  have hr0 := exact_height_nonneg her
  have hl0 := exact_height_nonneg hel
  by_cases hb : 1 < |heightOfNode l' - heightOfNode r|
  · -- rebalancing: the left subtree grew to two more than the right one
    have hb' := lt_abs.mp hb
    have hl1 : heightOfNode l' = h0 + 1 := by omega
    have hd : h0 - heightOfNode r = 1 := by omega
    have hlean : Leans value l' := by
      rcases hgrow with h | h
      · omega
      · exact h.2 (by omega)
    cases l' with
    | null => exact absurd hlean (by simp [Leans])
    | mk la ll lr lh lv =>
      obtain ⟨hell, helr, hlh⟩ := hel
      obtain ⟨hbll, hblr, hlb1, hlb2⟩ := hbl
      simp only [heightOfNode_mk, heightOfNode_null] at hl1
      simp only [getBalance_mk] at hlb1 hlb2
      have hll0 := exact_height_nonneg hell
      have hlr0 := exact_height_nonneg helr
      rcases hlean with ⟨hvl, hL⟩ | ⟨hvl, hL⟩
      · -- single right rotation
        refine ⟨.mk la ll (.mk a lr r (Max.max (heightOfNode lr) (heightOfNode r) + 1) x)
          (Max.max (heightOfNode ll) (Max.max (heightOfNode lr) (heightOfNode r) + 1) + 1) lv,
          ?_, ?_, ?_, ?_⟩
        · simp only [doInsertTail, updateNodeHeight_mk, getBalance_mk, heightOfNode_mk,
            heightOfNode_null]
          rw [if_pos (by simpa [heightOfNode_mk, heightOfNode_null] using hb)]
          simp only [makeTreeBalanced]
          rw [if_pos (by omega), if_pos hvl]
          rfl
        · exact ⟨hell, ⟨helr, her, rfl⟩, rfl⟩
        · refine ⟨hbll, ⟨hblr, hbr, ?_, ?_⟩, ?_, ?_⟩ <;>
            simp only [getBalance_mk, heightOfNode_mk, heightOfNode_null] <;> omega
        · left
          simp only [heightOfNode_mk, heightOfNode_null]
          omega
      · -- left rotation of the left child, then right rotation
        cases lr with
        | null => simp only [heightOfNode_mk, heightOfNode_null] at hL; omega
        | mk ma ml mr mh mv =>
          obtain ⟨heml, hemr, hmh⟩ := helr
          obtain ⟨hbml, hbmr, hmb1, hmb2⟩ := hblr
          simp only [heightOfNode_mk, heightOfNode_null] at hL hlh hlb1 hlb2
          simp only [getBalance_mk] at hmb1 hmb2
          have hml0 := exact_height_nonneg heml
          have hmr0 := exact_height_nonneg hemr
          refine ⟨.mk ma (.mk la ll ml (Max.max (heightOfNode ll) (heightOfNode ml) + 1) lv)
            (.mk a mr r (Max.max (heightOfNode mr) (heightOfNode r) + 1) x)
            (Max.max (Max.max (heightOfNode ll) (heightOfNode ml) + 1)
              (Max.max (heightOfNode mr) (heightOfNode r) + 1) + 1) mv, ?_, ?_, ?_, ?_⟩
          · simp only [doInsertTail, updateNodeHeight_mk, getBalance_mk, heightOfNode_mk,
              heightOfNode_null]
            rw [if_pos (by simpa [heightOfNode_mk, heightOfNode_null] using hb)]
            simp only [makeTreeBalanced]
            rw [if_pos (by omega), if_neg (not_lt.mpr (le_of_lt hvl)), if_pos hvl]
            simp only [leftRotate, Option.some_bind, rightRotate, updateNodeHeight_mk,
              heightOfNode_mk, heightOfNode_null, exact_update_eq heml, Option.map_some']
          · exact ⟨⟨hell, heml, rfl⟩, ⟨hemr, her, rfl⟩, rfl⟩
          · refine ⟨⟨hbll, hbml, ?_, ?_⟩, ⟨hbmr, hbr, ?_, ?_⟩, ?_, ?_⟩ <;>
              simp only [getBalance_mk, heightOfNode_mk, heightOfNode_null] <;> omega
          · left
            simp only [heightOfNode_mk, heightOfNode_null]
            omega
  · -- no rebalancing
    have hb' := abs_le.mp (not_lt.mp hb)
    refine ⟨.mk a l' r (Max.max (heightOfNode l') (heightOfNode r) + 1) x, ?_, ?_, ?_, ?_⟩
    · simp only [doInsertTail, updateNodeHeight_mk, getBalance_mk, heightOfNode_mk,
        heightOfNode_null]
      rw [if_neg hb]
      rfl
    · exact ⟨hel, her, rfl⟩
    · refine ⟨hbl, hbr, ?_, ?_⟩ <;> simp only [getBalance_mk] <;> omega
    · simp only [heightOfNode_mk, heightOfNode_null, Leans]
      rcases hgrow with h | ⟨h, -⟩
      · left; omega
      · by_cases hc : heightOfNode r ≤ h0
        · right
          exact ⟨by omega, Or.inl ⟨hv, by omega⟩⟩
        · left; omega

theorem doInsertTail_right [LinearOrder α] (a : Nat) (l r' : Node α) (hh : Int) (x value : α)
    (s : Self) (h0 : Int) (hel : Exact l) (hbl : Balanced l) (her : Exact r')
    (hbr : Balanced r') (hbal : -1 ≤ heightOfNode l - h0 ∧ heightOfNode l - h0 ≤ 1)
    (hgrow : heightOfNode r' = h0 ∨
      (heightOfNode r' = h0 + 1 ∧ (h0 ≠ 0 → Leans value r')))
    (hv : x < value) :
    ∃ t', (doInsertTail (.mk a l r' hh x) value s).map Prod.fst = some t' ∧ Exact t' ∧
      Balanced t' ∧ (heightOfNode t' = Max.max (heightOfNode l) h0 + 1 ∨
        (heightOfNode t' = Max.max (heightOfNode l) h0 + 2 ∧ Leans value t')) := by
  have hr0 := exact_height_nonneg her
  have hl0 := exact_height_nonneg hel
  by_cases hb : 1 < |heightOfNode l - heightOfNode r'|
  · -- rebalancing: the right subtree grew to two more than the left one
    have hb' := lt_abs.mp hb
    have hr1 : heightOfNode r' = h0 + 1 := by omega
    have hd : h0 - heightOfNode l = 1 := by omega
    have hlean : Leans value r' := by
      rcases hgrow with h | h
      · omega
      · exact h.2 (by omega)
    cases r' with
    | null => exact absurd hlean (by simp [Leans])
    | mk ra rl rr rh rv =>
      obtain ⟨herl, herr, hrh⟩ := her
      obtain ⟨hbrl, hbrr, hrb1, hrb2⟩ := hbr
      simp only [heightOfNode_mk, heightOfNode_null] at hr1
      simp only [getBalance_mk] at hrb1 hrb2
      have hrl0 := exact_height_nonneg herl
      have hrr0 := exact_height_nonneg herr
      rcases hlean with ⟨hvr, hL⟩ | ⟨hvr, hL⟩
      · -- right rotation of the right child, then left rotation
        cases rl with
        | null => simp only [heightOfNode_mk, heightOfNode_null] at hL; omega
        | mk ma ml mr mh mv =>
          obtain ⟨heml, hemr, hmh⟩ := herl
          obtain ⟨hbml, hbmr, hmb1, hmb2⟩ := hbrl
          simp only [heightOfNode_mk, heightOfNode_null] at hL hrh hrb1 hrb2
          simp only [getBalance_mk] at hmb1 hmb2
          have hml0 := exact_height_nonneg heml
          have hmr0 := exact_height_nonneg hemr
          refine ⟨.mk ma (.mk a l ml (Max.max (heightOfNode l) (heightOfNode ml) + 1) x)
            (.mk ra mr rr (Max.max (heightOfNode mr) (heightOfNode rr) + 1) rv)
            (Max.max (heightOfNode ml) (Max.max (heightOfNode mr) (heightOfNode rr) + 1) + 1)
            mv, ?_, ?_, ?_, ?_⟩
          · simp only [doInsertTail, updateNodeHeight_mk, getBalance_mk, heightOfNode_mk,
              heightOfNode_null]
            rw [if_pos (by simpa [heightOfNode_mk, heightOfNode_null] using hb)]
            simp only [makeTreeBalanced]
            rw [if_neg (by omega), if_pos (by omega),
              if_neg (not_lt.mpr (le_of_lt hvr)), if_pos hvr]
            simp only [rightRotate, Option.some_bind, leftRotate, updateNodeHeight_mk,
              heightOfNode_mk, heightOfNode_null, exact_update_eq heml, Option.map_some']
          · refine ⟨⟨hel, heml, rfl⟩, ⟨hemr, herr, rfl⟩, ?_⟩
            simp only [heightOfNode_mk, heightOfNode_null]
            omega
          · refine ⟨⟨hbl, hbml, ?_, ?_⟩, ⟨hbmr, hbrr, ?_, ?_⟩, ?_, ?_⟩ <;>
              simp only [getBalance_mk, heightOfNode_mk, heightOfNode_null] <;> omega
          · left
            simp only [heightOfNode_mk, heightOfNode_null]
            omega
      · -- single left rotation; the top keeps its old cached height
        refine ⟨.mk ra (.mk a l rl (Max.max (heightOfNode l) (heightOfNode rl) + 1) x) rr rh rv,
          ?_, ?_, ?_, ?_⟩
        · simp only [doInsertTail, updateNodeHeight_mk, getBalance_mk, heightOfNode_mk,
            heightOfNode_null]
          rw [if_pos (by simpa [heightOfNode_mk, heightOfNode_null] using hb)]
          simp only [makeTreeBalanced]
          rw [if_neg (by omega), if_pos (by omega), if_pos hvr]
          simp only [leftRotate, updateNodeHeight_mk, heightOfNode_mk, heightOfNode_null,
            (exact_update_eq herl), Option.map_some']
        · refine ⟨⟨hel, herl, rfl⟩, herr, ?_⟩
          simp only [heightOfNode_mk, heightOfNode_null]
          omega
        · refine ⟨⟨hbl, hbrl, ?_, ?_⟩, hbrr, ?_, ?_⟩ <;>
            simp only [getBalance_mk, heightOfNode_mk, heightOfNode_null] <;> omega
        · left
          simp only [heightOfNode_mk, heightOfNode_null]
          omega
  · -- no rebalancing
    have hb' := abs_le.mp (not_lt.mp hb)
    refine ⟨.mk a l r' (Max.max (heightOfNode l) (heightOfNode r') + 1) x, ?_, ?_, ?_, ?_⟩
    · simp only [doInsertTail, updateNodeHeight_mk, getBalance_mk, heightOfNode_mk,
        heightOfNode_null]
      rw [if_neg hb]
      rfl
    · exact ⟨hel, her, rfl⟩
    · refine ⟨hbl, hbr, ?_, ?_⟩ <;> simp only [getBalance_mk] <;> omega
    · simp only [heightOfNode_mk, heightOfNode_null, Leans]
      rcases hgrow with h | ⟨h, -⟩
      · left; omega
      · by_cases hc : heightOfNode l ≤ h0
        · right
          exact ⟨by omega, Or.inr ⟨hv, by omega⟩⟩
        · left; omega

/-- On a tree with exact cached heights and AVL balance `doInsert` returns,
and the returned tree has exact cached heights and AVL balance again; its
height is that of the argument or one more. -/
theorem doInsert_avl [LinearOrder α] (fresh : Nat) (value : α) (t : Node α) (s : Self)
    (he : Exact t) (hb : Balanced t) :
    ∃ p, doInsert fresh value t s = some p ∧ Exact p.1 ∧ Balanced p.1 ∧
      (heightOfNode p.1 = heightOfNode t ∨
        (heightOfNode p.1 = heightOfNode t + 1 ∧
          (heightOfNode t ≠ 0 → Leans value p.1))) := by
  induction t generalizing s with
  | null =>
    refine ⟨_, rfl, ?_, ?_, ?_⟩
    · exact ⟨trivial, trivial, rfl⟩
    · refine ⟨trivial, trivial, ?_, ?_⟩ <;> simp [getBalance_mk, heightOfNode_null]
    · right; simp [heightOfNode_mk, heightOfNode_null]
  | mk a l r hh x ihl ihr =>
    obtain ⟨hel, her, hhh⟩ := he
    obtain ⟨hbl, hbr, hb1, hb2⟩ := hb
    simp only [getBalance_mk] at hb1 hb2
    have hl0 := exact_height_nonneg hel
    have hr0 := exact_height_nonneg her
    by_cases h1 : value > x
    · obtain ⟨q, hq, heq, hbq, hgq⟩ := ihr s her hbr
      obtain ⟨t', ht', hep, hbp, hgp⟩ := doInsertTail_right a l q.1 hh x value q.2
        (heightOfNode r) hel hbl heq hbq ⟨by omega, by omega⟩ hgq h1
      obtain ⟨p, hp, rfl⟩ := Option.map_eq_some'.mp ht'
      refine ⟨p, ?_, hep, hbp, ?_⟩
      · unfold doInsert
        rw [if_pos h1, hq]
        exact hp
      · simp only [heightOfNode_mk, heightOfNode_null, hhh]
        rcases hgp with h | ⟨h, h'⟩
        · left; omega
        · right; exact ⟨by omega, fun _ => h'⟩
    · by_cases h2 : value < x
      · obtain ⟨q, hq, heq, hbq, hgq⟩ := ihl s hel hbl
        obtain ⟨t', ht', hep, hbp, hgp⟩ := doInsertTail_left a q.1 r hh x value q.2
          (heightOfNode l) heq hbq her hbr ⟨by omega, by omega⟩ hgq h2
        obtain ⟨p, hp, rfl⟩ := Option.map_eq_some'.mp ht'
        refine ⟨p, ?_, hep, hbp, ?_⟩
        · unfold doInsert
          rw [if_neg h1, if_pos h2, hq]
          exact hp
        · simp only [heightOfNode_mk, heightOfNode_null, hhh]
          rcases hgp with h | ⟨h, h'⟩
          · left; omega
          · right; exact ⟨by omega, fun _ => h'⟩
      · refine ⟨(.mk a l r hh x, { s with m_size := decSize s.m_size }), ?_,
          ⟨hel, her, hhh⟩, ⟨hbl, hbr, hb1, hb2⟩, Or.inl rfl⟩
        unfold doInsert
        rw [if_neg h1, if_neg h2]

/-! ## Removal -/

theorem getMin_inorder {t : Node α} {a : Nat} {l r : Node α} {h : Int} {sv : α}
    (hm : getMin t = .mk a l r h sv) : ∃ rest, doInorder t = sv :: rest := by
  induction t with
  | null => simp [getMin] at hm
  | mk ta tl tr th tv ihl _ =>
    cases tl with
    | null =>
      simp only [getMin, Node.mk.injEq] at hm
      obtain ⟨-, -, -, -, rfl⟩ := hm
      exact ⟨doInorder tr, by simp [doInorder]⟩
    | mk la ll lr lh lv =>
      simp only [getMin] at hm
      obtain ⟨rest, hr⟩ := ihl hm
      exact ⟨rest ++ tv :: doInorder tr, by rw [doInorder, hr]; rfl⟩

theorem getMin_ne_null {a : Nat} {l r : Node α} {h : Int} {v : α} :
    getMin (.mk a l r h v) ≠ .null := by
  induction l generalizing a r h v with
  | null => simp [getMin]
  | mk la ll lr lh lv ihl _ => simp only [getMin]; exact ihl

theorem removeNode_inorder [LinearOrder α] (value : α) (t : Node α) (s : Self)
    (p : Node α × Self) (h : removeNode value t s = some p) (hb : BST t) :
    doInorder p.1 = (doInorder t).erase value := by
  induction t generalizing s p value with
  | null =>
    simp only [removeNode, Option.some.injEq] at h
    subst h
    simp [doInorder]
  | mk a l r hh x ihl ihr =>
    obtain ⟨hbl, hbr, hl, hr⟩ := hb
    unfold removeNode at h
    split_ifs at h with h1 h2
    · obtain ⟨q, hq, hq2⟩ := Option.bind_eq_some.mp h
      rw [(removeNodeTail_some hq2).1]
      simp only [doInorder, ihr value s q hq hbr]
      have hvl : value ∉ doInorder l := fun hm => lt_asymm (hl value hm) h1
      rw [List.erase_append_right _ hvl,
        List.erase_cons_tail (by rw [beq_iff_eq]; exact ne_of_lt h1)]
    · obtain ⟨q, hq, hq2⟩ := Option.bind_eq_some.mp h
      rw [(removeNodeTail_some hq2).1]
      simp only [doInorder, ihl value s q hq hbl]
      by_cases hvl : value ∈ doInorder l
      · rw [List.erase_append_left _ hvl]
      · have hvr : value ∉ doInorder r := fun hm => lt_asymm (hr value hm) h2
        rw [List.erase_of_not_mem hvl, List.erase_of_not_mem]
        simp [hvl, hvr, ne_of_lt h2]
    · have hx : value = x := le_antisymm (not_lt.mp h1) (not_lt.mp h2)
      subst hx
      have hvl : value ∉ doInorder l := fun hm => lt_irrefl _ (hl value hm)
      cases l with
      | null =>
        simp only at h
        rw [(removeNodeTail_some h).1]
        simp [doInorder]
      | mk la ll lr lh lv =>
        cases r with
        | null =>
          simp only at h
          rw [(removeNodeTail_some h).1]
          simp only [doInorder] at hvl ⊢
          rw [List.erase_append_right _ hvl]
          simp
        | mk ra rl rr rh rv =>
          simp only at h
          split at h
          · simp at h
          · rename_i sa sl sr sh sv hmin
            obtain ⟨q, hq, hq2⟩ := Option.bind_eq_some.mp h
            rw [(removeNodeTail_some hq2).1]
            obtain ⟨rest, hrest⟩ := getMin_inorder hmin
            simp only [doInorder, ihr sv s q hq hbr] at hvl ⊢
            simp only [doInorder] at hrest
            rw [List.erase_append_right _ hvl, hrest]
            simp

theorem posHeights_height_nonneg {t : Node α} (h : PosHeights t) : 0 ≤ heightOfNode t := by
  cases t with
  | null => simp [heightOfNode_mk, heightOfNode_null]
  | mk a l r hh v => have := h.2.2; simp only [heightOfNode_mk, heightOfNode_null]; omega

theorem posHeights_update {t : Node α} (h : PosHeights t) : PosHeights (updateNodeHeight t) := by
  cases t with
  | null => exact h
  | mk a l r hh v =>
    have h1 := posHeights_height_nonneg h.1
    exact ⟨h.1, h.2.1, by omega⟩

theorem exact_posHeights {t : Node α} (h : Exact t) : PosHeights t := by
  induction t with
  | null => trivial
  | mk a l r hh v ihl ihr => exact ⟨ihl h.1, ihr h.2.1, exact_height_pos h⟩

theorem leftRotate_total {a : Nat} {l r : Node α} {hh : Int} {v : α} (s : Self)
    (hp : PosHeights (.mk a l r hh v)) (hr : 0 < heightOfNode r) :
    ∃ p, leftRotate (.mk a l r hh v) s = some p ∧ PosHeights p.1 := by
  cases r with
  | null => simp [heightOfNode_mk, heightOfNode_null] at hr
  | mk ra rl rr rh rv =>
    obtain ⟨hpl, ⟨hprl, hprr, hrh⟩, -⟩ := hp
    have := posHeights_height_nonneg hpl
    refine ⟨_, rfl, ⟨hpl, posHeights_update hprl, ?_⟩, hprr, hrh⟩
    simp only [updateNodeHeight_mk, heightOfNode_mk, heightOfNode_null]
    omega

theorem rightRotate_total {a : Nat} {l r : Node α} {hh : Int} {v : α} (s : Self)
    (hp : PosHeights (.mk a l r hh v)) (hl : 0 < heightOfNode l) :
    ∃ p, rightRotate (.mk a l r hh v) s = some p ∧ PosHeights p.1 := by
  cases l with
  | null => simp [heightOfNode_mk, heightOfNode_null] at hl
  | mk la ll lr lh lv =>
    obtain ⟨⟨hpll, hplr, hlh⟩, hpr, -⟩ := hp
    have := posHeights_height_nonneg hpll
    have := posHeights_height_nonneg hplr
    refine ⟨_, rfl, hpll, ⟨hplr, hpr, ?_⟩, ?_⟩
    · omega
    · simp only [updateNodeHeight_mk, heightOfNode_mk]; omega

theorem removeNodeTail_total (n : Node α) (s : Self) (hp : PosHeights n) :
    ∃ p, removeNodeTail n s = some p ∧ PosHeights p.1 := by
  cases n with
  | null => exact ⟨_, rfl, trivial⟩
  | mk a l r hh x =>
    have hp' : PosHeights (.mk a l r (Max.max (heightOfNode l) (heightOfNode r) + 1) x) :=
      posHeights_update hp
    obtain ⟨hpl, hpr, -⟩ := hp
    have hl0 := posHeights_height_nonneg hpl
    have hr0 := posHeights_height_nonneg hpr
    simp only [removeNodeTail, updateNodeHeight_mk, getBalance_mk]
    split_ifs with h1 h2 h3 h4
    · exact rightRotate_total s hp' (by omega)
    · cases l with
      | null => simp [heightOfNode_mk, heightOfNode_null] at h1; omega
      | mk la ll lr lh lv =>
        simp only [getBalance_mk] at h2
        have hll0 := posHeights_height_nonneg hpl.1
        obtain ⟨q, hq, hpq⟩ := leftRotate_total s hpl (by omega)
        rw [hq, Option.some_bind]
        have hq0 : 0 < heightOfNode q.1 := by
          cases lr with
          | null => simp [heightOfNode_mk, heightOfNode_null] at h2; omega
          | mk ma ml mr mh mv =>
            simp only [leftRotate, Option.some.injEq] at hq
            subst hq
            have := hpl.2.1.2.2
            simp only [heightOfNode_mk, heightOfNode_null]; omega
        exact rightRotate_total q.2 ⟨hpq, hpr, hp'.2.2⟩ hq0
    · exact leftRotate_total s hp' (by omega)
    · cases r with
      | null => simp [heightOfNode_mk, heightOfNode_null] at h3; omega
      | mk ra rl rr rh rv =>
        simp only [getBalance_mk] at h4
        have hrr0 := posHeights_height_nonneg hpr.2.1
        obtain ⟨q, hq, hpq⟩ := rightRotate_total s hpr (by omega)
        rw [hq, Option.some_bind]
        have hq0 : 0 < heightOfNode q.1 := by
          cases rl with
          | null => simp [heightOfNode_mk, heightOfNode_null] at h4; omega
          | mk ma ml mr mh mv =>
            simp only [rightRotate, Option.some.injEq] at hq
            subst hq
            have := posHeights_height_nonneg hpr.1.1
            simp only [updateNodeHeight_mk, heightOfNode_mk, heightOfNode_null]; omega
        exact leftRotate_total q.2 ⟨hpl, hpq, hp'.2.2⟩ hq0
    · exact ⟨_, rfl, hp'⟩

/-- On a tree whose cached heights are all positive `removeNode` returns. -/
theorem removeNode_total [LinearOrder α] (value : α) (t : Node α) (s : Self)
    (hp : PosHeights t) : ∃ p, removeNode value t s = some p ∧ PosHeights p.1 := by
  induction t generalizing s value with
  | null => exact ⟨_, rfl, trivial⟩
  | mk a l r hh x ihl ihr =>
    obtain ⟨hpl, hpr, hh1⟩ := hp
    unfold removeNode
    split_ifs with h1 h2
    · obtain ⟨q, hq, hpq⟩ := ihr value s hpr
      rw [hq, Option.some_bind]
      exact removeNodeTail_total _ _ ⟨hpl, hpq, hh1⟩
    · obtain ⟨q, hq, hpq⟩ := ihl value s hpl
      rw [hq, Option.some_bind]
      exact removeNodeTail_total _ _ ⟨hpq, hpr, hh1⟩
    · cases l with
      | null => exact removeNodeTail_total _ _ hpr
      | mk la ll lr lh lv =>
        cases r with
        | null => exact removeNodeTail_total _ _ hpl
        | mk ra rl rr rh rv =>
          simp only
          split
          · rename_i hmin
            exact absurd hmin getMin_ne_null
          · rename_i sa sl sr sh sv hmin
            obtain ⟨q, hq, hpq⟩ := ihr sv s hpr
            rw [hq, Option.some_bind]
            exact removeNodeTail_total _ _ ⟨hpl, hpq, hh1⟩

/-- Removing a value that does not occur in a tree with exact cached heights
and AVL balance leaves every node as it is. -/
theorem removeNode_absent [LinearOrder α] (value : α) (t : Node α) (s : Self)
    (he : Exact t) (hb : Balanced t) (hv : value ∉ doInorder t) :
    removeNode value t s = some (t, s) := by
  induction t generalizing s with
  | null => rfl
  | mk a l r hh x ihl ihr =>
    obtain ⟨hel, her, hhh⟩ := he
    obtain ⟨hbl, hbr, hb1, hb2⟩ := hb
    simp only [getBalance_mk] at hb1 hb2
    simp only [doInorder, List.mem_append, List.mem_cons, not_or] at hv
    have htail : removeNodeTail (.mk a l r hh x) s = some (.mk a l r hh x, s) := by
      simp only [removeNodeTail, updateNodeHeight_mk, getBalance_mk]
      rw [if_neg (by omega), if_neg (by omega), ← hhh]
    unfold removeNode
    split_ifs with h1 h2
    · rw [ihr s her hbr hv.2.2, Option.some_bind]; exact htail
    · rw [ihl s hel hbl hv.1, Option.some_bind]; exact htail
    · exact absurd (le_antisymm (not_lt.mp h1) (not_lt.mp h2)) hv.2.1

theorem removeNode_size [LinearOrder α] (value : α) (t : Node α) (s : Self)
    (p : Node α × Self) (h : removeNode value t s = some p) :
    p.2.m_size = s.m_size ∧ List.Sublist (addrs p.1) (addrs t) := by
  induction t generalizing s p value with
  | null =>
    simp only [removeNode, Option.some.injEq] at h
    subst h
    exact ⟨rfl, List.Sublist.refl _⟩
  | mk a l r hh x ihl ihr =>
    unfold removeNode at h
    split_ifs at h with h1 h2
    · obtain ⟨q, hq, hq2⟩ := Option.bind_eq_some.mp h
      have e := removeNodeTail_some hq2
      have e' := ihr value s q hq
      rw [e.2.2, e.2.1, e'.1]
      exact ⟨rfl, List.Sublist.append_left (List.Sublist.cons₂ a e'.2) _⟩
    · obtain ⟨q, hq, hq2⟩ := Option.bind_eq_some.mp h
      have e := removeNodeTail_some hq2
      have e' := ihl value s q hq
      rw [e.2.2, e.2.1, e'.1]
      exact ⟨rfl, List.Sublist.append_right e'.2 _⟩
    · cases l with
      | null =>
        simp only at h
        have e := removeNodeTail_some h
        rw [e.2.2, e.2.1]
        exact ⟨rfl, by simp [addrs]⟩
      | mk la ll lr lh lv =>
        cases r with
        | null =>
          simp only at h
          have e := removeNodeTail_some h
          rw [e.2.2, e.2.1]
          exact ⟨rfl, by simp [addrs]⟩
        | mk ra rl rr rh rv =>
          simp only at h
          split at h
          · simp at h
          · rename_i sa sl sr sh sv hmin
            obtain ⟨q, hq, hq2⟩ := Option.bind_eq_some.mp h
            have e := removeNodeTail_some hq2
            have e' := ihr sv s q hq
            rw [e.2.2, e.2.1, e'.1]
            exact ⟨rfl, List.Sublist.append_left (List.Sublist.cons₂ a e'.2) _⟩

/-! ## `insert` on the whole object -/

theorem count_eq_length (t : Node α) : count t = (doInorder t).length := by
  induction t with
  | null => rfl
  | mk a l r h v ihl ihr =>
    simp only [count, doInorder, List.length_append, List.length_cons, ihl, ihr]
    omega

theorem le_maxAddr {t : Node α} {x : Nat} (h : x ∈ addrs t) : x ≤ maxAddr t := by
  induction t with
  | null => simp [addrs] at h
  | mk a l r hh v ihl ihr =>
    simp only [addrs, List.mem_append, List.mem_cons] at h
    simp only [maxAddr]
    rcases h with h | h | h
    · have := ihl h; omega
    · omega
    · have := ihr h; omega

theorem freshAddr_not_mem (t : Node α) : freshAddr t ∉ addrs t := by
  intro h
  have := le_maxAddr h
  unfold freshAddr at this
  omega

theorem deref_addrOf (t : Node α) : deref (addrOf t) t = t := by
  cases t with
  | null => rfl
  | mk a l r h v => simp [deref, addrOf]

theorem incSize_decSize (n : Nat) (h : n < SIZE_MOD) : incSize (decSize n) = n := by
  unfold incSize decSize SIZE_MOD at *
  split_ifs <;> omega

theorem incSize_of_lt (n : Nat) (h : n + 1 < SIZE_MOD) : incSize n = n + 1 := by
  unfold incSize SIZE_MOD at *
  omega

theorem decSize_of_pos (n : Nat) (h0 : 0 < n) (h : n < SIZE_MOD) : decSize n = n - 1 := by
  unfold decSize SIZE_MOD at *
  split_ifs <;> omega

theorem decSize_int (n : Nat) : (decSize n : Int) = ((n : Int) - 1) % 2 ^ 64 := by
  unfold decSize SIZE_MOD
  split_ifs <;> omega

/-- When `m_size` is the node count, `m_root` follows the tree `doInsert`
returns: the object ends up owning exactly that tree. -/
theorem insert_eq [LinearOrder α] (t : AVL α) (v : α) (hs : t.m_size = count t.m_root)
    (hnd : (addrs t.m_root).Nodup) :
    insert t v =
      (doInsert (freshAddr t.m_root) v t.m_root ⟨addrOf t.m_root, t.m_size⟩).map fun p =>
        ⟨p.1, incSize p.2.m_size⟩ := by
  unfold insert
  cases hd : doInsert (freshAddr t.m_root) v t.m_root ⟨addrOf t.m_root, t.m_size⟩ with
  | none => rfl
  | some p =>
    simp only [Option.map_some', Option.some.injEq, AVL.mk.injEq, and_true]
    obtain ⟨root, sz⟩ := t
    simp only at hs hnd hd ⊢
    cases root with
    | null =>
      simp only [count] at hs
      subst hs
      simp only [doInsert, Option.some.injEq] at hd
      subst hd
      simp [deref]
    | mk a l r hh x =>
      have hsz : sz ≠ 0 := by simp only [count] at hs; omega
      have hfr := freshAddr_not_mem (Node.mk a l r hh x)
      have hroot := doInsert_root _ v _ _ p hd hsz hnd hfr
        (fun y _ hy => hy) (by
          intro hc
          simp only [addrOf, Option.some.injEq] at hc
          apply hfr
          rw [← hc]
          simp [addrs])
      simp only [rootAfter, addrOf, if_true] at hroot
      rw [hroot]
      exact deref_addrOf _

theorem insert_some [LinearOrder α] {t t' : AVL α} {v : α} (hb : BST t.m_root)
    (hs : t.m_size = count t.m_root) (hlt : t.m_size < SIZE_MOD)
    (hnd : (addrs t.m_root).Nodup) (h : insert t v = some t') :
    inorderTraverse t' = insSorted v (inorderTraverse t) ∧ BST t'.m_root ∧
      (addrs t'.m_root).Nodup ∧
      t'.m_size = (if v ∈ inorderTraverse t then t.m_size else incSize t.m_size) := by
  rw [insert_eq t v hs hnd] at h
  obtain ⟨p, hp, rfl⟩ := Option.map_eq_some'.mp h
  have hin := doInsert_inorder _ _ _ _ _ hp hb
  refine ⟨hin, ?_, (doInsert_nodup hp hnd (freshAddr_not_mem _)).1, ?_⟩
  · rw [BST_iff_pairwise, hin]
    exact insSorted_pairwise _ _ ((BST_iff_pairwise _).mp hb)
  · simp only [inorderTraverse]
    rcases doInsert_addrs _ _ _ _ _ hp with ⟨-, e2, e3⟩ | ⟨e1, e2⟩
    · rw [if_pos e3, e2]
      exact incSize_decSize _ hlt
    · have hlen : (addrs p.1).length = (addrs t.m_root).length + 1 := by
        rw [List.Perm.length_eq e1]; rfl
      have hnot : v ∉ doInorder t.m_root := by
        intro hm
        have h1 : (doInorder p.1).length = (doInorder t.m_root).length := by
          rw [hin, insSorted_length, if_pos hm]
        have h2 : ∀ n : Node α, (addrs n).length = (doInorder n).length := by
          intro n
          induction n with
          | null => rfl
          | mk a l r hh x ihl ihr => simp [addrs, doInorder, ihl, ihr]
        rw [h2, h2] at hlen
        omega
      rw [if_neg hnot, e2]

theorem insert_total [LinearOrder α] (t : AVL α) (v : α) (he : Exact t.m_root)
    (hbal : Balanced t.m_root) (hs : t.m_size = count t.m_root)
    (hnd : (addrs t.m_root).Nodup) :
    ∃ t', insert t v = some t' ∧ Exact t'.m_root ∧ Balanced t'.m_root := by
  obtain ⟨p, hp, hep, hbp, -⟩ :=
    doInsert_avl (freshAddr t.m_root) v t.m_root ⟨addrOf t.m_root, t.m_size⟩ he hbal
  refine ⟨⟨p.1, incSize p.2.m_size⟩, ?_, hep, hbp⟩
  rw [insert_eq t v hs hnd, hp]
  rfl

/-- Insertion into a well-formed object returns a well-formed object whose
in-order sequence is the old one with `v` put in place. -/
theorem insert_wellFormed [LinearOrder α] (t : AVL α) (v : α) (hw : WellFormed t)
    (hroom : v ∈ inorderTraverse t ∨ t.m_size + 1 < SIZE_MOD) :
    ∃ t', insert t v = some t' ∧ WellFormed t' ∧
      inorderTraverse t' = insSorted v (inorderTraverse t) := by
  obtain ⟨hb, he, hbal, hs, hlt, hnd⟩ := hw
  obtain ⟨t', ht', he', hbal'⟩ := insert_total t v he hbal hs hnd
  obtain ⟨hin, hb', hnd', hsz'⟩ := insert_some hb hs hlt hnd ht'
  refine ⟨t', ht', ⟨hb', he', hbal', ?_, ?_, hnd'⟩, hin⟩
  · rw [count_eq_length, ← inorderTraverse, hin, insSorted_length, hsz']
    split_ifs with hm
    · rw [hs, count_eq_length]; rfl
    · rw [incSize_of_lt _ (hroom.resolve_left hm), hs, count_eq_length]; rfl
  · rw [hsz']
    split_ifs with hm
    · exact hlt
    · rw [incSize_of_lt _ (hroom.resolve_left hm)]
      exact hroom.resolve_left hm

theorem insertAll_cons [LinearOrder α] (t t1 : AVL α) (x : α) (xs : List α)
    (h : insert t x = some t1) : insertAll t (x :: xs) = insertAll t1 xs := by
  simp only [insertAll, List.foldl_cons, Option.some_bind, h]

theorem mem_foldl_insSorted [LinearOrder α] (xs L : List α) (x : α) :
    x ∈ xs.foldl (fun L v => insSorted v L) L ↔ x ∈ L ∨ x ∈ xs := by
  induction xs generalizing L with
  | nil => simp
  | cons y ys ih =>
    simp only [List.foldl_cons, ih, mem_insSorted, List.mem_cons]
    tauto

theorem pairwise_foldl_insSorted [LinearOrder α] (xs L : List α) (h : L.Pairwise (· < ·)) :
    (xs.foldl (fun L v => insSorted v L) L).Pairwise (· < ·) := by
  induction xs generalizing L with
  | nil => exact h
  | cons y ys ih => exact ih _ (insSorted_pairwise y L h)

theorem nodup_of_pairwise_lt [LinearOrder α] {L : List α} (h : L.Pairwise (· < ·)) :
    L.Nodup :=
  List.Pairwise.imp (fun hab => ne_of_lt hab) h

theorem insertAll_wellFormed [LinearOrder α] (xs : List α) (t : AVL α) (hw : WellFormed t)
    (hroom : t.m_size + xs.length < SIZE_MOD) :
    ∃ t', insertAll t xs = some t' ∧ WellFormed t' ∧
      inorderTraverse t' = xs.foldl (fun L v => insSorted v L) (inorderTraverse t) := by
  induction xs generalizing t with
  | nil => exact ⟨t, rfl, hw, rfl⟩
  | cons x xs ih =>
    simp only [List.length_cons] at hroom
    obtain ⟨t1, h1, hw1, hin1⟩ := insert_wellFormed t x hw (Or.inr (by omega))
    have hsz : t1.m_size ≤ t.m_size + 1 := by
      have := hw1.2.2.2.1
      have h0 := hw.2.2.2.1
      rw [count_eq_length] at this h0
      rw [← inorderTraverse] at this h0
      rw [this, hin1, insSorted_length, h0]
      split_ifs <;> omega
    obtain ⟨t', h', hw', hin'⟩ := ih t1 hw1 (by omega)
    refine ⟨t', ?_, hw', ?_⟩
    · rw [insertAll_cons t t1 x xs h1]; exact h'
    · rw [hin', hin1]; rfl

theorem wellFormed_empty [LinearOrder α] : WellFormed (empty_tree : AVL α) := by
  refine ⟨trivial, trivial, trivial, rfl, ?_, List.nodup_nil⟩
  show 0 < SIZE_MOD
  unfold SIZE_MOD
  omega

/-! ## Claims on insertion -/

/-- C1: on a well-formed tree `insert(v)` returns; when `v` is absent the
in-order traversal afterwards is the old one with `v` inserted at its sorted
position, and when `v` is present it is the old one unchanged. -/
theorem insert_inorder_sorted_position [LinearOrder α] (t : AVL α) (v : α)
    (hw : WellFormed t) :
    ∃ t', insert t v = some t' ∧
      (v ∉ inorderTraverse t →
        inorderTraverse t' = List.orderedInsert (· ≤ ·) v (inorderTraverse t)) ∧
      (v ∈ inorderTraverse t → inorderTraverse t' = inorderTraverse t) := by
  obtain ⟨hb, he, hbal, hs, hlt, hnd⟩ := hw
  obtain ⟨t', ht', -, -⟩ := insert_total t v he hbal hs hnd
  obtain ⟨hin, -, -, -⟩ := insert_some hb hs hlt hnd ht'
  refine ⟨t', ht', ?_, ?_⟩
  · intro hv; rw [hin, insSorted, if_neg hv]
  · intro hv; rw [hin, insSorted, if_pos hv]

/-- Witness for C1: the tree built from 5,3,8,1,4,7 is well-formed, inserting
9 into it behaves as stated, and inserting 5,3,8,1,4,7,9 into the empty tree
yields the in-order traversal 1,3,4,5,7,8,9. -/
theorem insert_inorder_sorted_position_witness :
    WellFormed (buildTree [5, 3, 8, 1, 4, 7]) ∧
      (∃ t', insert (buildTree [5, 3, 8, 1, 4, 7]) 9 = some t' ∧
        (9 ∉ inorderTraverse (buildTree [5, 3, 8, 1, 4, 7]) →
          inorderTraverse t' =
            List.orderedInsert (· ≤ ·) 9 (inorderTraverse (buildTree [5, 3, 8, 1, 4, 7]))) ∧
        (9 ∈ inorderTraverse (buildTree [5, 3, 8, 1, 4, 7]) →
          inorderTraverse t' = inorderTraverse (buildTree [5, 3, 8, 1, 4, 7]))) ∧
      (insertAll (empty_tree : AVL Nat) [5, 3, 8, 1, 4, 7, 9]).map inorderTraverse =
        some [1, 3, 4, 5, 7, 8, 9] :=
  ⟨by decide, insert_inorder_sorted_position (buildTree [5, 3, 8, 1, 4, 7]) 9 (by decide),
    by decide⟩

/-- C3: `insert` preserves well-formedness.  For a well-formed tree (BST
ordering, exact cached heights, AVL balance, `m_size` equal to the node
count) that can hold one more element, `insert(v)` returns and the tree
`m_root` designates afterwards satisfies all the conditions again. -/
theorem insert_preserves_wellFormed [LinearOrder α] (t : AVL α) (v : α)
    (hw : WellFormed t) (hroom : t.m_size + 1 < SIZE_MOD) :
    ∃ t', insert t v = some t' ∧ WellFormed t' := by
  obtain ⟨t', ht', hw', -⟩ := insert_wellFormed t v hw (Or.inr hroom)
  exact ⟨t', ht', hw'⟩

/-- Witness for C3: inserting 3 into the tree built from 1,2 rotates the root
(the node holding 2 becomes the root) and gives a well-formed tree. -/
theorem insert_preserves_wellFormed_witness :
    WellFormed (buildTree [1, 2]) ∧ (buildTree [1, 2]).m_size + 1 < SIZE_MOD ∧
      (∃ t', insert (buildTree [1, 2]) 3 = some t' ∧ WellFormed t') ∧
      insert (buildTree [1, 2]) 3 =
        some ⟨.mk 2 (.mk 1 .null .null 1 1) (.mk 3 .null .null 1 3) 2 2, 3⟩ :=
  ⟨by decide, by decide,
    insert_preserves_wellFormed (buildTree [1, 2]) 3 (by decide) (by decide), by decide⟩

/-- C5: size accuracy under insertion.  Inserting the elements of `xs` (fewer
than `2 ^ 64` of them) into the empty tree returns a tree whose `size()` is
the number of distinct values of `xs` and its node count; it is
`length xs` when `xs` is pairwise distinct; and inserting a value already
present leaves `size()` unchanged. -/
theorem size_after_inserts [LinearOrder α] (xs : List α) (hlen : xs.length < SIZE_MOD) :
    ∃ t, insertAll empty_tree xs = some t ∧ size t = xs.dedup.length ∧
      size t = count t.m_root ∧ (xs.Nodup → size t = xs.length) ∧
      ∀ v ∈ inorderTraverse t, ∃ t', insert t v = some t' ∧ size t' = size t := by
  obtain ⟨t, ht, hw, hin⟩ := insertAll_wellFormed xs empty_tree wellFormed_empty
    (by show 0 + xs.length < SIZE_MOD; omega)
  have hsz : size t = (inorderTraverse t).length := by
    rw [inorderTraverse, ← count_eq_length]; exact hw.2.2.2.1
  have hpw : (inorderTraverse t).Pairwise (· < ·) := (BST_iff_pairwise _).mp hw.1
  have hperm : List.Perm (inorderTraverse t) xs.dedup := by
    rw [List.perm_ext_iff_of_nodup (nodup_of_pairwise_lt hpw) (List.nodup_dedup xs)]
    intro a
    rw [hin, mem_foldl_insSorted, List.mem_dedup]
    simp [inorderTraverse, empty_tree, doInorder]
  have hded : size t = xs.dedup.length := by rw [hsz, List.Perm.length_eq hperm]
  refine ⟨t, ht, hded, hw.2.2.2.1, ?_, ?_⟩
  · intro hnd; rw [hded, List.Nodup.dedup hnd]
  · intro v hv
    obtain ⟨t', ht', hw', hin'⟩ := insert_wellFormed t v hw (Or.inl hv)
    refine ⟨t', ht', ?_⟩
    have : size t' = (inorderTraverse t').length := by
      rw [inorderTraverse, ← count_eq_length]; exact hw'.2.2.2.1
    rw [this, hsz, hin', insSorted_length, if_pos hv]

/-- Witness for C5: the list 5,3,5,8,3 has three distinct values. -/
theorem size_after_inserts_witness :
    [5, 3, 5, 8, 3].length < SIZE_MOD ∧
      ∃ t, insertAll empty_tree [5, 3, 5, 8, 3] = some t ∧
        size t = [5, 3, 5, 8, 3].dedup.length ∧
        size t = count t.m_root ∧ ([5, 3, 5, 8, 3].Nodup → size t = [5, 3, 5, 8, 3].length) ∧
        ∀ v ∈ inorderTraverse t, ∃ t', insert t v = some t' ∧ size t' = size t :=
  ⟨by decide, size_after_inserts [5, 3, 5, 8, 3] (by decide)⟩

/-! ## `remove` on the whole object -/

theorem remove_some [LinearOrder α] {t t' : AVL α} {v : α} (h : remove t v = some t') :
    ∃ p, removeNode v t.m_root ⟨addrOf t.m_root, t.m_size⟩ = some p ∧ t'.m_root = p.1 ∧
      t'.m_size = decSize t.m_size := by
  unfold remove at h
  obtain ⟨p, hp, rfl⟩ := Option.map_eq_some'.mp h
  exact ⟨p, hp, rfl, by rw [(removeNode_size _ _ _ _ hp).1]⟩

theorem remove_total [LinearOrder α] (t : AVL α) (v : α) (hp : PosHeights t.m_root) :
    ∃ t', remove t v = some t' ∧ PosHeights t'.m_root := by
  obtain ⟨p, hp1, hp2⟩ := removeNode_total v t.m_root ⟨addrOf t.m_root, t.m_size⟩ hp
  exact ⟨⟨p.1, decSize p.2.m_size⟩, by unfold remove; rw [hp1]; rfl, hp2⟩

theorem remove_inorder_erase [LinearOrder α] {t t' : AVL α} {v : α} (hb : BST t.m_root)
    (h : remove t v = some t') :
    inorderTraverse t' = (inorderTraverse t).erase v := by
  obtain ⟨p, hp, hr, -⟩ := remove_some h
  unfold inorderTraverse
  rw [hr]
  exact removeNode_inorder v _ _ p hp hb

/-! ## Claims on removal -/

/-- C2: on a tree with BST ordering, exact cached heights and AVL balance
`remove(v)` returns; when `v` is present the in-order traversal afterwards is
the old one with `v` deleted (and `v` no longer occurs), and when `v` is
absent it is the old one unchanged. -/
theorem remove_inorder_deleted [LinearOrder α] (t : AVL α) (v : α) (hb : BST t.m_root)
    (he : Exact t.m_root) (_hbal : Balanced t.m_root) :
    ∃ t', remove t v = some t' ∧
      (v ∈ inorderTraverse t →
        inorderTraverse t' = (inorderTraverse t).erase v ∧ v ∉ inorderTraverse t') ∧
      (v ∉ inorderTraverse t → inorderTraverse t' = inorderTraverse t) := by
  obtain ⟨t', ht', -⟩ := remove_total t v (exact_posHeights he)
  have hin := remove_inorder_erase hb ht'
  have hnd : (inorderTraverse t).Nodup :=
    nodup_of_pairwise_lt ((BST_iff_pairwise _).mp hb)
  refine ⟨t', ht', ?_, ?_⟩
  · intro _
    refine ⟨hin, ?_⟩
    rw [hin, List.Nodup.mem_erase_iff hnd]
    exact fun hc => hc.1 rfl
  · intro hv
    rw [hin, List.erase_of_not_mem hv]

/-- Witness for C2: from the tree built by inserting 5,3,8,1,4,7,9,
`remove(5)` (a node with two children) yields the in-order traversal
1,3,4,7,8,9; the node that held 5 now holds its in-order successor 7. -/
theorem remove_inorder_deleted_witness :
    (BST (buildTree [5, 3, 8, 1, 4, 7, 9]).m_root ∧
        Exact (buildTree [5, 3, 8, 1, 4, 7, 9]).m_root ∧
        Balanced (buildTree [5, 3, 8, 1, 4, 7, 9]).m_root) ∧
      (∃ t', remove (buildTree [5, 3, 8, 1, 4, 7, 9]) 5 = some t' ∧
        (5 ∈ inorderTraverse (buildTree [5, 3, 8, 1, 4, 7, 9]) →
          inorderTraverse t' = (inorderTraverse (buildTree [5, 3, 8, 1, 4, 7, 9])).erase 5 ∧
            5 ∉ inorderTraverse t') ∧
        (5 ∉ inorderTraverse (buildTree [5, 3, 8, 1, 4, 7, 9]) →
          inorderTraverse t' = inorderTraverse (buildTree [5, 3, 8, 1, 4, 7, 9]))) ∧
      (remove (buildTree [5, 3, 8, 1, 4, 7, 9]) 5).map inorderTraverse =
        some [1, 3, 4, 7, 8, 9] ∧
      (remove (buildTree [5, 3, 8, 1, 4, 7, 9]) 5).map AVL.m_root =
        some (.mk 1 (.mk 2 (.mk 4 .null .null 1 1) (.mk 5 .null .null 1 4) 2 3)
          (.mk 3 .null (.mk 7 .null .null 1 9) 2 8) 3 7) :=
  ⟨by decide,
    remove_inorder_deleted (buildTree [5, 3, 8, 1, 4, 7, 9]) 5 (by decide) (by decide)
      (by decide),
    by decide, by decide⟩

/-- C4 fails on the code: the tree built by inserting
8,3,10,2,6,9,12,1,5,7,11,13,4 is well-formed, and after `remove(9)` the node
holding 8 has a left subtree of actual height 1 and a right subtree of actual
height 3.  `leftRotate` refreshes the height of `node->right` instead of
`nodeRight`, so the rotation at 10 leaves the cached height of 12 at 2
instead of 3, and the root is then rebalanced on a wrong balance factor. -/
theorem remove_breaks_avl_balance :
    WellFormed (buildTree [8, 3, 10, 2, 6, 9, 12, 1, 5, 7, 11, 13, 4]) ∧
      ∃ t', remove (buildTree [8, 3, 10, 2, 6, 9, 12, 1, 5, 7, 11, 13, 4]) 9 = some t' ∧
        ¬ HBalanced t'.m_root ∧
        ∃ a l r h, getNode 8 t'.m_root = .mk a l r h 8 ∧ H l = 1 ∧ H r = 3 := by
  refine ⟨by decide, ?_⟩
  have h : (remove (buildTree [8, 3, 10, 2, 6, 9, 12, 1, 5, 7, 11, 13, 4]) 9).isSome := by
    decide
  obtain ⟨t', ht'⟩ := Option.isSome_iff_exists.mp h
  refine ⟨t', ht', ?_, ?_⟩
  · have : (remove (buildTree [8, 3, 10, 2, 6, 9, 12, 1, 5, 7, 11, 13, 4]) 9).all
        (fun t => decide (¬ HBalanced t.m_root)) = true := by decide
    rw [ht'] at this
    simpa using this
  · have : (remove (buildTree [8, 3, 10, 2, 6, 9, 12, 1, 5, 7, 11, 13, 4]) 9).all
        (fun t => match getNode 8 t.m_root with
          | .null => false
          | .mk _ l r _ x => decide (x = 8 ∧ H l = 1 ∧ H r = 3)) = true := by decide
    rw [ht'] at this
    simp only [Option.all_some] at this
    split at this
    · exact absurd this (by simp)
    · rename_i a l r h x heq
      simp only [decide_eq_true_eq] at this
      obtain ⟨rfl, h1, h2⟩ := this
      exact ⟨a, l, r, h, heq, h1, h2⟩

/-- C7: `remove` decrements the element count once per call whatever the
tree holds.  On every tree (cached heights positive, as the code always
keeps them) `remove(v)` returns and `size()` becomes `(s - 1) mod 2 ^ 64`;
when `v` is absent from a tree with exact cached heights and AVL balance
every node is left as it was; on a tree without nodes the result has no
nodes, and on the empty tree `size()` becomes `2 ^ 64 - 1`. -/
theorem remove_decrements_size [LinearOrder α] (t : AVL α) (v : α)
    (hp : PosHeights t.m_root) :
    ∃ t', remove t v = some t' ∧
      (size t' : Int) = ((size t : Int) - 1) % 2 ^ 64 ∧
      (Exact t.m_root → Balanced t.m_root → v ∉ inorderTraverse t →
        t'.m_root = t.m_root) ∧
      (t.m_root = .null → t'.m_root = .null) ∧
      (t = empty_tree → size t' = 2 ^ 64 - 1) := by
  obtain ⟨t', ht', -⟩ := remove_total t v hp
  obtain ⟨p, hp1, hroot, hsz⟩ := remove_some ht'
  refine ⟨t', ht', ?_, ?_, ?_, ?_⟩
  · unfold size; rw [hsz]; exact decSize_int _
  · intro he hbal hv
    rw [removeNode_absent v t.m_root _ he hbal hv] at hp1
    cases hp1
    exact hroot
  · intro hnull
    rw [hnull] at hp1
    simp only [removeNode, Option.some.injEq] at hp1
    rw [hroot, ← hp1]
  · intro he
    unfold size; rw [hsz, he]
    show decSize 0 = 2 ^ 64 - 1
    decide

/-- Witness for C7: removing the absent value 7 from the tree holding 5. -/
theorem remove_decrements_size_witness :
    PosHeights (buildTree [5]).m_root ∧
      ∃ t', remove (buildTree [5]) 7 = some t' ∧
        (size t' : Int) = ((size (buildTree [5]) : Int) - 1) % 2 ^ 64 ∧
        (Exact (buildTree [5]).m_root → Balanced (buildTree [5]).m_root →
          7 ∉ inorderTraverse (buildTree [5]) → t'.m_root = (buildTree [5]).m_root) ∧
        ((buildTree [5]).m_root = .null → t'.m_root = .null) ∧
        (buildTree [5] = empty_tree → size t' = 2 ^ 64 - 1) :=
  ⟨by decide, remove_decrements_size (buildTree [5]) 7 (by decide)⟩

/-! ## Reachable states, queries -/

theorem reachPresent_invariant [LinearOrder α] {t : AVL α} {n : Nat}
    (hr : ReachPresent t n) (hn : n < SIZE_MOD) :
    BST t.m_root ∧ (addrs t.m_root).Nodup ∧ t.m_size = count t.m_root ∧
      count t.m_root ≤ n := by
  induction hr with
  | init => exact ⟨trivial, List.nodup_nil, rfl, Nat.le_refl _⟩
  | @insert t t' n v _ hins ih =>
    obtain ⟨hb, hnd, hs, hc⟩ := ih (by omega)
    obtain ⟨hin, hb', hnd', hsz'⟩ := insert_some hb hs (by omega) hnd hins
    have hlen : count t'.m_root =
        if v ∈ inorderTraverse t then count t.m_root else count t.m_root + 1 := by
      rw [count_eq_length, ← inorderTraverse, hin, insSorted_length, count_eq_length]
      rfl
    refine ⟨hb', hnd', ?_, ?_⟩
    · rw [hsz', hlen]
      split_ifs
      · exact hs
      · rw [incSize_of_lt _ (by omega), hs]
    · rw [hlen]; split_ifs <;> omega
  | @remove t t' n v _ hmem hrem ih =>
    obtain ⟨hb, hnd, hs, hc⟩ := ih (by omega)
    obtain ⟨p, hp, hroot, hsz⟩ := remove_some hrem
    have hin := remove_inorder_erase hb hrem
    have hlen : count t'.m_root + 1 = count t.m_root := by
      rw [count_eq_length, ← inorderTraverse, hin, List.length_erase_of_mem hmem,
        count_eq_length, ← inorderTraverse]
      have := List.length_pos_of_mem hmem
      omega
    refine ⟨?_, ?_, ?_, by omega⟩
    · rw [BST_iff_pairwise, ← inorderTraverse, hin]
      exact List.Pairwise.sublist (List.erase_sublist _ _) ((BST_iff_pairwise _).mp hb)
    · rw [hroot]
      exact List.Nodup.sublist (removeNode_size _ _ _ _ hp).2 hnd
    · rw [hsz, decSize_of_pos _ (by omega) (by omega)]
      omega

/-- Sortedness along runs whose calls all return: in every state reached
from the empty tree by fewer than `2 ^ 64` calls of `insert` and of `remove`
of values present at the time, each call having a defined result, the
in-order traversal is strictly increasing (hence non-decreasing, and the BST
ordering holds) and its length is `size()`.  Not every such run can be
continued: `insert` has no defined result on some of these states. -/
theorem reachable_inorder_sorted [LinearOrder α] (t : AVL α) (n : Nat)
    (hr : ReachPresent t n) (hn : n < SIZE_MOD) :
    (inorderTraverse t).Sorted (· < ·) ∧ (inorderTraverse t).Sorted (· ≤ ·) ∧
      BST t.m_root ∧ (inorderTraverse t).length = size t := by
  obtain ⟨hb, -, hs, -⟩ := reachPresent_invariant hr hn
  have hpw := (BST_iff_pairwise _).mp hb
  refine ⟨hpw, List.Pairwise.imp (fun h => le_of_lt h) hpw, hb, ?_⟩
  unfold size inorderTraverse
  rw [hs, count_eq_length]

/-- Instance of the sortedness result: the state after `insert(5)`,
`insert(3)`, `insert(8)`, `remove(5)`. -/
theorem reachable_inorder_sorted_witness :
    ReachPresent (⟨.mk 1 (.mk 2 .null .null 1 3) .null 2 8, 2⟩ : AVL Nat) 4 ∧
      4 < SIZE_MOD ∧
      (inorderTraverse (⟨.mk 1 (.mk 2 .null .null 1 3) .null 2 8, 2⟩ : AVL Nat)).Sorted
        (· < ·) ∧
      (inorderTraverse (⟨.mk 1 (.mk 2 .null .null 1 3) .null 2 8, 2⟩ : AVL Nat)).Sorted
        (· ≤ ·) ∧
      BST (⟨.mk 1 (.mk 2 .null .null 1 3) .null 2 8, 2⟩ : AVL Nat).m_root ∧
      (inorderTraverse (⟨.mk 1 (.mk 2 .null .null 1 3) .null 2 8, 2⟩ : AVL Nat)).length =
        size (⟨.mk 1 (.mk 2 .null .null 1 3) .null 2 8, 2⟩ : AVL Nat) :=
  have hr : ReachPresent (⟨.mk 1 (.mk 2 .null .null 1 3) .null 2 8, 2⟩ : AVL Nat) 4 :=
    ReachPresent.remove (t := buildTree [5, 3, 8]) 5
      (ReachPresent.insert (t := buildTree [5, 3]) 8
        (ReachPresent.insert (t := buildTree [5]) 3
          (ReachPresent.insert (t := empty_tree) 5 ReachPresent.init (by decide))
          (by decide))
        (by decide))
      (by decide) (by decide)
  ⟨hr, by decide, reachable_inorder_sorted _ 4 hr (by decide)⟩

/-- C8 fails on the code.  After `remove(1)` on the freshly constructed
empty tree there is no node and `m_size` is `2 ^ 64 - 1`, so `empty()` is
false and `min()` / `max()` dereference the `nullptr` returned by `getMin` /
`getMax` instead of raising the error; after `insert(5)`, `remove(7)` the
tree holds 5 and `m_size` is 0, so `min()` / `max()` raise the error although
a node exists. -/
theorem min_max_after_absent_remove :
    (remove (empty_tree : AVL Nat) 1).map (fun t => (t.m_root, size t, min t, max t)) =
        some (.null, 2 ^ 64 - 1, .error .nullDeref, .error .nullDeref) ∧
      ((insert (empty_tree : AVL Nat) 5).bind fun t => remove t 7).map
          (fun t => (inorderTraverse t, size t, min t, max t)) =
        some ([5], 0, .error .logic_error, .error .logic_error) := by
  constructor <;> rfl

theorem getMax_inorder {t : Node α} {a : Nat} {l r : Node α} {h : Int} {sv : α}
    (hm : getMax t = .mk a l r h sv) : ∃ rest, doInorder t = rest ++ [sv] := by
  induction t with
  | null => simp [getMax] at hm
  | mk ta tl tr th tv _ ihr =>
    cases tr with
    | null =>
      simp only [getMax, Node.mk.injEq] at hm
      obtain ⟨-, -, -, -, rfl⟩ := hm
      exact ⟨doInorder tl, by simp [doInorder]⟩
    | mk ra rl rr rh rv =>
      simp only [getMax] at hm
      obtain ⟨rest, hr⟩ := ihr hm
      exact ⟨doInorder tl ++ tv :: rest, by rw [doInorder, hr]; simp⟩

theorem getMax_ne_null {a : Nat} {l r : Node α} {h : Int} {v : α} :
    getMax (.mk a l r h v) ≠ .null := by
  induction r generalizing a l h v with
  | null => simp [getMax]
  | mk ra rl rr rh rv _ ihr => simp only [getMax]; exact ihr

/-- C9: on a non-empty tree with BST ordering and `size() != 0`, `min()`
returns the first element of the in-order traversal and `max()` the last
one; they are the least and the greatest value stored. -/
theorem min_max_extremes [LinearOrder α] (t : AVL α) (hne : t.m_root ≠ .null)
    (hb : BST t.m_root) (hs : size t ≠ 0) :
    ∃ mn mx, min t = .ok mn ∧ max t = .ok mx ∧
      (inorderTraverse t).head? = some mn ∧ (inorderTraverse t).getLast? = some mx ∧
      ∀ x ∈ inorderTraverse t, mn ≤ x ∧ x ≤ mx := by
  obtain ⟨root, sz⟩ := t
  simp only [size] at hs
  simp only at hne hb
  cases root with
  | null => exact absurd rfl hne
  | mk a l r h v =>
    have hpw := (BST_iff_pairwise _).mp hb
    cases hmin : getMin (Node.mk a l r h v) with
    | null => exact absurd hmin getMin_ne_null
    | mk a1 l1 r1 h1 mn =>
      cases hmax : getMax (Node.mk a l r h v) with
      | null => exact absurd hmax getMax_ne_null
      | mk a2 l2 r2 h2 mx =>
        obtain ⟨rest1, e1⟩ := getMin_inorder hmin
        obtain ⟨rest2, e2⟩ := getMax_inorder hmax
        refine ⟨mn, mx, ?_, ?_, ?_, ?_, ?_⟩
        · simp [min, empty, hs, hmin]
        · simp [max, empty, hs, hmax]
        · simp [inorderTraverse, e1]
        · simp [inorderTraverse, e2]
        · intro x hx
          simp only [inorderTraverse] at hx
          constructor
          · rw [e1] at hx hpw
            rcases List.mem_cons.mp hx with rfl | hx'
            · exact le_refl _
            · exact le_of_lt ((List.pairwise_cons.mp hpw).1 x hx')
          · rw [e2] at hx hpw
            rcases List.mem_append.mp hx with hx' | hx'
            · exact le_of_lt ((List.pairwise_append.mp hpw).2.2 x hx' mx (by simp))
            · simp only [List.mem_singleton] at hx'
              rw [hx']

/-- Witness for C9: in the tree built from 5,3,8,1,4,7,9, `min()` is 1 and
`max()` is 9. -/
theorem min_max_extremes_witness :
    (buildTree [5, 3, 8, 1, 4, 7, 9]).m_root ≠ .null ∧
      BST (buildTree [5, 3, 8, 1, 4, 7, 9]).m_root ∧
      size (buildTree [5, 3, 8, 1, 4, 7, 9]) ≠ 0 ∧
      (∃ mn mx, min (buildTree [5, 3, 8, 1, 4, 7, 9]) = .ok mn ∧
        max (buildTree [5, 3, 8, 1, 4, 7, 9]) = .ok mx ∧
        (inorderTraverse (buildTree [5, 3, 8, 1, 4, 7, 9])).head? = some mn ∧
        (inorderTraverse (buildTree [5, 3, 8, 1, 4, 7, 9])).getLast? = some mx ∧
        ∀ x ∈ inorderTraverse (buildTree [5, 3, 8, 1, 4, 7, 9]), mn ≤ x ∧ x ≤ mx) ∧
      min (buildTree [5, 3, 8, 1, 4, 7, 9]) = .ok 1 ∧
      max (buildTree [5, 3, 8, 1, 4, 7, 9]) = .ok 9 :=
  ⟨by decide, by decide, by decide,
    min_max_extremes (buildTree [5, 3, 8, 1, 4, 7, 9]) (by decide) (by decide) (by decide),
    rfl, rfl⟩

theorem getNode_ne_null_iff [LinearOrder α] (value : α) (t : Node α) (hb : BST t) :
    getNode value t ≠ .null ↔ value ∈ doInorder t := by
  induction t with
  | null => simp [getNode, doInorder]
  | mk a l r h v ihl ihr =>
    obtain ⟨hbl, hbr, hl, hr⟩ := hb
    simp only [getNode, doInorder, List.mem_append, List.mem_cons]
    split_ifs with h1 h2
    · rw [ihr hbr]
      constructor
      · exact fun hm => Or.inr (Or.inr hm)
      · rintro (hm | hm | hm)
        · exact absurd (hl value hm) (not_lt.mpr (le_of_lt h2))
        · exact absurd hm.symm h1
        · exact hm
    · rw [ihl hbl]
      constructor
      · exact fun hm => Or.inl hm
      · rintro (hm | hm | hm)
        · exact hm
        · exact absurd hm.symm h1
        · exact absurd (hr value hm) h2
    · have : v = value := not_not.mp h1
      simp [this]

/-- C10: on a tree with BST ordering `search(v)` is true exactly when `v`
occurs in the in-order traversal, that is when some node holds `v`; on the
empty tree `search` is false for every `v`. -/
theorem search_iff_mem [LinearOrder α] (t : AVL α) (v : α) (hb : BST t.m_root) :
    (search t v = true ↔ v ∈ inorderTraverse t) ∧ search (empty_tree : AVL α) v = false := by
  refine ⟨?_, rfl⟩
  rw [inorderTraverse, ← getNode_ne_null_iff v t.m_root hb]
  unfold search
  cases getNode v t.m_root <;> simp

/-- Witness for C10: 4 is found and 6 is not in the tree built from
5,3,8,1,4,7,9. -/
theorem search_iff_mem_witness :
    BST (buildTree [5, 3, 8, 1, 4, 7, 9]).m_root ∧
      ((search (buildTree [5, 3, 8, 1, 4, 7, 9]) 4 = true ↔
          4 ∈ inorderTraverse (buildTree [5, 3, 8, 1, 4, 7, 9])) ∧
        search (empty_tree : AVL Nat) 4 = false) ∧
      search (buildTree [5, 3, 8, 1, 4, 7, 9]) 4 = true ∧
      search (buildTree [5, 3, 8, 1, 4, 7, 9]) 6 = false :=
  ⟨by decide, search_iff_mem (buildTree [5, 3, 8, 1, 4, 7, 9]) 4 (by decide), rfl, rfl⟩

/-! ## Successor and predecessor -/

theorem getNode_value [LinearOrder α] {value : α} {t : Node α} {a : Nat} {l r : Node α}
    {h : Int} {x : α} (hn : getNode value t = .mk a l r h x) : x = value := by
  induction t with
  | null => simp [getNode] at hn
  | mk ta tl tr th tx ihl ihr =>
    simp only [getNode] at hn
    split_ifs at hn with h1 h2
    · exact ihr hn
    · exact ihl hn
    · simp only [Node.mk.injEq] at hn
      rw [← hn.2.2.2.2]
      exact not_not.mp h1

theorem filter_gt_right [LinearOrder α] (v x : α) (A B : List α) (hA : ∀ y ∈ A, y < x)
    (hx : x < v) :
    (A ++ x :: B).filter (fun y => decide (v < y)) = B.filter (fun y => decide (v < y)) := by
  have h1 : A.filter (fun y => decide (v < y)) = [] := by
    rw [List.filter_eq_nil_iff]
    intro y hy
    simpa using le_of_lt (lt_trans (hA y hy) hx)
  rw [List.filter_append, h1, List.filter_cons_of_neg (by simpa using le_of_lt hx)]
  rfl

theorem filter_gt_left [LinearOrder α] (v x : α) (A B : List α) (hB : ∀ y ∈ B, x < y)
    (hx : v < x) :
    (A ++ x :: B).filter (fun y => decide (v < y)) =
      A.filter (fun y => decide (v < y)) ++ x :: B := by
  have h1 : B.filter (fun y => decide (v < y)) = B := by
    rw [List.filter_eq_self]
    intro y hy
    simpa using lt_trans hx (hB y hy)
  rw [List.filter_append, List.filter_cons_of_pos (by simpa using hx), h1]

theorem filter_gt_here [LinearOrder α] (v : α) (A B : List α) (hA : ∀ y ∈ A, y < v)
    (hB : ∀ y ∈ B, v < y) :
    (A ++ v :: B).filter (fun y => decide (v < y)) = B := by
  have h1 : A.filter (fun y => decide (v < y)) = [] := by
    rw [List.filter_eq_nil_iff]
    intro y hy
    simpa using le_of_lt (hA y hy)
  have h2 : B.filter (fun y => decide (v < y)) = B := by
    rw [List.filter_eq_self]
    intro y hy
    simpa using hB y hy
  rw [List.filter_append, h1, List.filter_cons_of_neg (by simp), h2]
  rfl

theorem filter_lt_right [LinearOrder α] (v x : α) (A B : List α) (hA : ∀ y ∈ A, y < x)
    (hx : x < v) :
    (A ++ x :: B).filter (fun y => decide (y < v)) =
      A ++ x :: B.filter (fun y => decide (y < v)) := by
  have h1 : A.filter (fun y => decide (y < v)) = A := by
    rw [List.filter_eq_self]
    intro y hy
    simpa using lt_trans (hA y hy) hx
  rw [List.filter_append, h1, List.filter_cons_of_pos (by simpa using hx)]

theorem filter_lt_left [LinearOrder α] (v x : α) (A B : List α) (hB : ∀ y ∈ B, x < y)
    (hx : v < x) :
    (A ++ x :: B).filter (fun y => decide (y < v)) = A.filter (fun y => decide (y < v)) := by
  have h1 : B.filter (fun y => decide (y < v)) = [] := by
    rw [List.filter_eq_nil_iff]
    intro y hy
    simpa using le_of_lt (lt_trans hx (hB y hy))
  rw [List.filter_append, List.filter_cons_of_neg (by simpa using le_of_lt hx), h1]
  simp

theorem filter_lt_here [LinearOrder α] (v : α) (A B : List α) (hA : ∀ y ∈ A, y < v)
    (hB : ∀ y ∈ B, v < y) :
    (A ++ v :: B).filter (fun y => decide (y < v)) = A := by
  have h1 : A.filter (fun y => decide (y < v)) = A := by
    rw [List.filter_eq_self]
    intro y hy
    simpa using hA y hy
  have h2 : B.filter (fun y => decide (y < v)) = [] := by
    rw [List.filter_eq_nil_iff]
    intro y hy
    simpa using le_of_lt (hB y hy)
  rw [List.filter_append, h1, List.filter_cons_of_neg (by simp), h2]
  simp

/-- When the node holding `value` has a right child, the least stored value
above `value` is the first value of that child's subtree. -/
theorem successor_in_right_subtree [LinearOrder α] (value : α) (t : Node α) (hb : BST t)
    {a : Nat} {l r : Node α} {h : Int} {x : α} (hn : getNode value t = .mk a l r h x) :
    ((doInorder t).filter (fun y => decide (value < y))).head? =
      ((doInorder r).head?).or
        (((doInorder t).filter (fun y => decide (value < y))).head?) := by
  induction t with
  | null => simp [getNode] at hn
  | mk ta tl tr th tx ihl ihr =>
    obtain ⟨hbl, hbr, hl, hr⟩ := hb
    simp only [getNode] at hn
    simp only [doInorder]
    split_ifs at hn with h1 h2
    · rw [filter_gt_right value tx _ _ hl h2]
      exact ihr hbr hn
    · have hlt : value < tx := lt_of_le_of_ne (not_lt.mp h2) (fun e => h1 e.symm)
      rw [filter_gt_left value tx _ _ hr hlt, List.head?_append]
      have := ihl hbl hn
      cases hr' : (doInorder r).head? with
      | none => simp
      | some y =>
        rw [hr'] at this
        simp only [Option.or_some] at this
        rw [this]
        simp
    · have hx : tx = value := not_not.mp h1
      simp only [Node.mk.injEq] at hn
      obtain ⟨-, -, rfl, -, -⟩ := hn
      subst hx
      rw [filter_gt_here tx _ _ hl hr]
      cases (doInorder tr).head? <;> simp

theorem successorLoop_spec [LinearOrder α] (value : α) (t : Node α) (hb : BST t)
    (acc : Node α) {a : Nat} {l : Node α} {h : Int} {x : α}
    (hn : getNode value t = .mk a l .null h x) :
    ∃ acc', successorLoop value t acc = some (.mk a l .null h x, acc') ∧
      valueOf acc' =
        (((doInorder t).filter (fun y => decide (value < y))).head?).or (valueOf acc) := by
  induction t generalizing acc with
  | null => simp [getNode] at hn
  | mk ta tl tr th tx ihl ihr =>
    obtain ⟨hbl, hbr, hl, hr⟩ := hb
    simp only [getNode] at hn
    simp only [doInorder, successorLoop]
    split_ifs at hn ⊢ with h1 h2
    · rw [filter_gt_right value tx _ _ hl h2]
      exact ihr hbr acc hn
    · have hlt : value < tx := lt_of_le_of_ne (not_lt.mp h2) (fun e => h1 e.symm)
      rw [filter_gt_left value tx _ _ hr hlt, List.head?_append]
      obtain ⟨acc', h1', h2'⟩ := ihl hbl (.mk ta tl tr th tx) hn
      refine ⟨acc', h1', ?_⟩
      rw [h2']
      cases ((doInorder tl).filter (fun y => decide (value < y))).head? <;> simp [valueOf]
    · have hx : tx = value := not_not.mp h1
      simp only [Node.mk.injEq] at hn
      obtain ⟨rfl, rfl, rfl, rfl, rfl⟩ := hn
      subst hx
      refine ⟨acc, rfl, ?_⟩
      rw [filter_gt_here tx _ _ hl hr]
      simp [doInorder]

/-- Under BST ordering `successorOf(value)` returns the first stored value
above `value` when `value` is stored and such a value exists, and `value`
itself otherwise. -/
theorem successorOf_eq [LinearOrder α] (t : AVL α) (value : α) (hb : BST t.m_root) :
    successorOf t value = some
      (if value ∈ inorderTraverse t then
        (((inorderTraverse t).filter (fun y => decide (value < y))).head?).getD value
      else value) := by
  obtain ⟨root, sz⟩ := t
  simp only [inorderTraverse, successorOf] at hb ⊢
  cases root with
  | null => simp [getSuccessor, doInorder]
  | mk ta tl tr th tx =>
    have hiff := getNode_ne_null_iff value _ hb
    cases hn : getNode value (Node.mk ta tl tr th tx) with
    | null =>
      have hv : value ∉ doInorder (Node.mk ta tl tr th tx) := by
        rw [← hiff, hn]; simp
      simp only [getSuccessor, hn, Option.map_some', if_neg hv]
    | mk a l r h x =>
      have hv : value ∈ doInorder (Node.mk ta tl tr th tx) := by
        rw [← hiff, hn]; simp
      rw [if_pos hv]
      cases r with
      | null =>
        obtain ⟨acc', h1, h2⟩ := successorLoop_spec value _ hb .null hn
        simp only [getSuccessor, hn, h1, Option.map_some']
        cases acc' with
        | null =>
          simp only [valueOf, Option.or_none] at h2
          rw [← h2]; rfl
        | mk _ _ _ _ y =>
          simp only [valueOf, Option.or_none] at h2
          rw [← h2]; rfl
      | mk ra rl rr rh rx =>
        have h1 := successor_in_right_subtree value _ hb hn
        simp only [getSuccessor, hn, Option.map_some']
        cases hm : getMin (Node.mk ra rl rr rh rx) with
        | null => exact absurd hm getMin_ne_null
        | mk _ _ _ _ sv =>
          obtain ⟨rest, hrest⟩ := getMin_inorder hm
          rw [hrest] at h1
          simp only [List.head?_cons, Option.or_some] at h1
          rw [h1]; rfl

theorem predecessor_in_left_subtree [LinearOrder α] (value : α) (t : Node α) (hb : BST t)
    {a : Nat} {l r : Node α} {h : Int} {x : α} (hn : getNode value t = .mk a l r h x) :
    ((doInorder t).filter (fun y => decide (y < value))).getLast? =
      ((doInorder l).getLast?).or
        (((doInorder t).filter (fun y => decide (y < value))).getLast?) := by
  induction t with
  | null => simp [getNode] at hn
  | mk ta tl tr th tx ihl ihr =>
    obtain ⟨hbl, hbr, hl, hr⟩ := hb
    simp only [getNode] at hn
    simp only [doInorder]
    split_ifs at hn with h1 h2
    · rw [filter_lt_right value tx _ _ hl h2, List.getLast?_append, List.getLast?_cons]
      have := ihr hbr hn
      cases hl' : (doInorder l).getLast? with
      | none => simp
      | some y =>
        rw [hl'] at this
        simp only [Option.or_some] at this
        rw [this]
        simp
    · have hlt : value < tx := lt_of_le_of_ne (not_lt.mp h2) (fun e => h1 e.symm)
      rw [filter_lt_left value tx _ _ hr hlt]
      exact ihl hbl hn
    · have hx : tx = value := not_not.mp h1
      simp only [Node.mk.injEq] at hn
      obtain ⟨-, rfl, -, -, -⟩ := hn
      subst hx
      rw [filter_lt_here tx _ _ hl hr]
      cases (doInorder tl).getLast? <;> simp

theorem predecessorLoop_spec [LinearOrder α] (value : α) (t : Node α) (hb : BST t)
    (acc : Node α) {a : Nat} {r : Node α} {h : Int} {x : α}
    (hn : getNode value t = .mk a .null r h x) :
    ∃ acc', predecessorLoop value t acc = some acc' ∧
      valueOf acc' =
        (((doInorder t).filter (fun y => decide (y < value))).getLast?).or (valueOf acc) := by
  induction t generalizing acc with
  | null => simp [getNode] at hn
  | mk ta tl tr th tx ihl ihr =>
    obtain ⟨hbl, hbr, hl, hr⟩ := hb
    simp only [getNode] at hn
    simp only [doInorder, predecessorLoop]
    split_ifs at hn ⊢ with h1 h2
    · rw [filter_lt_right value tx _ _ hl h2, List.getLast?_append, List.getLast?_cons]
      obtain ⟨acc', h1', h2'⟩ := ihr hbr (.mk ta tl tr th tx) hn
      refine ⟨acc', h1', ?_⟩
      rw [h2']
      cases ((doInorder tr).filter (fun y => decide (y < value))).getLast? <;>
        simp [valueOf]
    · have hlt : value < tx := lt_of_le_of_ne (not_lt.mp h2) (fun e => h1 e.symm)
      rw [filter_lt_left value tx _ _ hr hlt]
      exact ihl hbl acc hn
    · have hx : tx = value := not_not.mp h1
      simp only [Node.mk.injEq] at hn
      obtain ⟨rfl, rfl, rfl, rfl, rfl⟩ := hn
      subst hx
      refine ⟨acc, rfl, ?_⟩
      rw [filter_lt_here tx _ _ hl hr]
      simp [doInorder]

/-- Under BST ordering `predecessorOf(value)` returns the last stored value
below `value` when `value` is stored and such a value exists, and `value`
itself otherwise. -/
theorem predecessorOf_eq [LinearOrder α] (t : AVL α) (value : α) (hb : BST t.m_root) :
    predecessorOf t value = some
      (if value ∈ inorderTraverse t then
        (((inorderTraverse t).filter (fun y => decide (y < value))).getLast?).getD value
      else value) := by
  obtain ⟨root, sz⟩ := t
  simp only [inorderTraverse, predecessorOf] at hb ⊢
  cases root with
  | null => simp [getPredecessor, doInorder]
  | mk ta tl tr th tx =>
    have hiff := getNode_ne_null_iff value _ hb
    cases hn : getNode value (Node.mk ta tl tr th tx) with
    | null =>
      have hv : value ∉ doInorder (Node.mk ta tl tr th tx) := by
        rw [← hiff, hn]; simp
      simp only [getPredecessor, hn, Option.map_some', if_neg hv]
    | mk a l r h x =>
      have hv : value ∈ doInorder (Node.mk ta tl tr th tx) := by
        rw [← hiff, hn]; simp
      rw [if_pos hv]
      cases l with
      | null =>
        obtain ⟨acc', h1, h2⟩ := predecessorLoop_spec value _ hb .null hn
        simp only [getPredecessor, hn, h1, Option.map_some']
        cases acc' with
        | null =>
          simp only [valueOf, Option.or_none] at h2
          rw [← h2]; rfl
        | mk _ _ _ _ y =>
          simp only [valueOf, Option.or_none] at h2
          rw [← h2]; rfl
      | mk la ll lr lh lx =>
        have h1 := predecessor_in_left_subtree value _ hb hn
        simp only [getPredecessor, hn, Option.map_some']
        cases hm : getMax (Node.mk la ll lr lh lx) with
        | null => exact absurd hm getMax_ne_null
        | mk _ _ _ _ sv =>
          obtain ⟨rest, hrest⟩ := getMax_inorder hm
          rw [hrest] at h1
          simp only [List.getLast?_append, List.getLast?_singleton, Option.or_some] at h1
          rw [h1]; rfl

/-- C12: on a tree with BST ordering `successorOf(v)` returns; when `v` is
stored and some stored value is greater, the result is the least stored
value strictly greater than `v`; when `v` is stored and is the maximum, or
when `v` is not stored, the result is `v` itself. -/
theorem successorOf_least_greater [LinearOrder α] (t : AVL α) (v : α) (hb : BST t.m_root) :
    ∃ r, successorOf t v = some r ∧
      (v ∈ inorderTraverse t → (∃ x ∈ inorderTraverse t, v < x) →
        r ∈ inorderTraverse t ∧ v < r ∧ ∀ x ∈ inorderTraverse t, v < x → r ≤ x) ∧
      (v ∈ inorderTraverse t → (∀ x ∈ inorderTraverse t, x ≤ v) → r = v) ∧
      (v ∉ inorderTraverse t → r = v) := by
  refine ⟨_, successorOf_eq t v hb, ?_, ?_, ?_⟩
  · intro hv ⟨x, hx, hvx⟩
    rw [if_pos hv]
    have hpw : ((inorderTraverse t).filter (fun y => decide (v < y))).Pairwise (· < ·) :=
      List.Pairwise.filter _ ((BST_iff_pairwise _).mp hb)
    have hxG : x ∈ (inorderTraverse t).filter (fun y => decide (v < y)) := by
      simp [List.mem_filter, hx, hvx]
    cases hG : (inorderTraverse t).filter (fun y => decide (v < y)) with
    | nil => rw [hG] at hxG; cases hxG
    | cons y G =>
      have hy : y ∈ (inorderTraverse t).filter (fun y => decide (v < y)) := by
        rw [hG]; exact List.mem_cons_self _ _
      simp only [List.mem_filter, decide_eq_true_eq] at hy
      rw [hG] at hpw
      simp only [List.head?_cons, Option.getD_some]
      refine ⟨hy.1, hy.2, ?_⟩
      intro z hz hvz
      have hzG : z ∈ y :: G := by
        rw [← hG]; simp [List.mem_filter, hz, hvz]
      rcases List.mem_cons.mp hzG with rfl | hzG
      · exact le_refl _
      · exact le_of_lt ((List.pairwise_cons.mp hpw).1 z hzG)
  · intro hv hmax
    rw [if_pos hv]
    have hG : (inorderTraverse t).filter (fun y => decide (v < y)) = [] := by
      rw [List.filter_eq_nil_iff]
      intro y hy
      simpa using hmax y hy
    rw [hG]; rfl
  · intro hv
    rw [if_neg hv]

/-- Witness for C12: in the tree built from 5,3,8,1,4,7,9, `successorOf(5)`
is 7 and `successorOf(9)` is 9. -/
theorem successorOf_least_greater_witness :
    BST (buildTree [5, 3, 8, 1, 4, 7, 9]).m_root ∧
      (∃ r, successorOf (buildTree [5, 3, 8, 1, 4, 7, 9]) 5 = some r ∧
        (5 ∈ inorderTraverse (buildTree [5, 3, 8, 1, 4, 7, 9]) →
          (∃ x ∈ inorderTraverse (buildTree [5, 3, 8, 1, 4, 7, 9]), 5 < x) →
          r ∈ inorderTraverse (buildTree [5, 3, 8, 1, 4, 7, 9]) ∧ 5 < r ∧
            ∀ x ∈ inorderTraverse (buildTree [5, 3, 8, 1, 4, 7, 9]), 5 < x → r ≤ x) ∧
        (5 ∈ inorderTraverse (buildTree [5, 3, 8, 1, 4, 7, 9]) →
          (∀ x ∈ inorderTraverse (buildTree [5, 3, 8, 1, 4, 7, 9]), x ≤ 5) → r = 5) ∧
        (5 ∉ inorderTraverse (buildTree [5, 3, 8, 1, 4, 7, 9]) → r = 5)) ∧
      successorOf (buildTree [5, 3, 8, 1, 4, 7, 9]) 5 = some 7 ∧
      successorOf (buildTree [5, 3, 8, 1, 4, 7, 9]) 9 = some 9 ∧
      successorOf (buildTree [5, 3, 8, 1, 4, 7, 9]) 4 = some 5 ∧
      successorOf (buildTree [5, 3, 8, 1, 4, 7, 9]) 6 = some 6 :=
  ⟨by decide, successorOf_least_greater (buildTree [5, 3, 8, 1, 4, 7, 9]) 5 (by decide),
    by decide, by decide, by decide, by decide⟩

/-- C13: on a tree with BST ordering `predecessorOf(v)` returns; when `v` is
stored and some stored value is less, the result is the greatest stored
value strictly less than `v`; when `v` is stored and is the minimum, or when
`v` is not stored, the result is `v` itself. -/
theorem predecessorOf_greatest_less [LinearOrder α] (t : AVL α) (v : α)
    (hb : BST t.m_root) :
    ∃ r, predecessorOf t v = some r ∧
      (v ∈ inorderTraverse t → (∃ x ∈ inorderTraverse t, x < v) →
        r ∈ inorderTraverse t ∧ r < v ∧ ∀ x ∈ inorderTraverse t, x < v → x ≤ r) ∧
      (v ∈ inorderTraverse t → (∀ x ∈ inorderTraverse t, v ≤ x) → r = v) ∧
      (v ∉ inorderTraverse t → r = v) := by
  refine ⟨_, predecessorOf_eq t v hb, ?_, ?_, ?_⟩
  · intro hv ⟨x, hx, hxv⟩
    rw [if_pos hv]
    have hpw : ((inorderTraverse t).filter (fun y => decide (y < v))).Pairwise (· < ·) :=
      List.Pairwise.filter _ ((BST_iff_pairwise _).mp hb)
    have hxG : x ∈ (inorderTraverse t).filter (fun y => decide (y < v)) := by
      simp [List.mem_filter, hx, hxv]
    cases hG : ((inorderTraverse t).filter (fun y => decide (y < v))).getLast? with
    | none =>
      rw [List.getLast?_eq_none_iff] at hG
      rw [hG] at hxG; cases hxG
    | some y =>
      obtain ⟨G, hG'⟩ := List.getLast?_eq_some_iff.mp hG
      have hy : y ∈ (inorderTraverse t).filter (fun y => decide (y < v)) := by
        rw [hG']; simp
      simp only [List.mem_filter, decide_eq_true_eq] at hy
      rw [hG'] at hpw
      simp only [Option.getD_some]
      refine ⟨hy.1, hy.2, ?_⟩
      intro z hz hzv
      have hzG : z ∈ G ++ [y] := by
        rw [← hG']; simp [List.mem_filter, hz, hzv]
      rcases List.mem_append.mp hzG with hzG | hzG
      · exact le_of_lt ((List.pairwise_append.mp hpw).2.2 z hzG y (by simp))
      · simp only [List.mem_singleton] at hzG
        rw [hzG]
  · intro hv hmin
    rw [if_pos hv]
    have hG : (inorderTraverse t).filter (fun y => decide (y < v)) = [] := by
      rw [List.filter_eq_nil_iff]
      intro y hy
      simpa using hmin y hy
    rw [hG]; rfl
  · intro hv
    rw [if_neg hv]

/-- Witness for C13: in the tree built from 5,3,8,1,4,7,9, `predecessorOf(5)`
is 4 and `predecessorOf(1)` is 1. -/
theorem predecessorOf_greatest_less_witness :
    BST (buildTree [5, 3, 8, 1, 4, 7, 9]).m_root ∧
      (∃ r, predecessorOf (buildTree [5, 3, 8, 1, 4, 7, 9]) 5 = some r ∧
        (5 ∈ inorderTraverse (buildTree [5, 3, 8, 1, 4, 7, 9]) →
          (∃ x ∈ inorderTraverse (buildTree [5, 3, 8, 1, 4, 7, 9]), x < 5) →
          r ∈ inorderTraverse (buildTree [5, 3, 8, 1, 4, 7, 9]) ∧ r < 5 ∧
            ∀ x ∈ inorderTraverse (buildTree [5, 3, 8, 1, 4, 7, 9]), x < 5 → x ≤ r) ∧
        (5 ∈ inorderTraverse (buildTree [5, 3, 8, 1, 4, 7, 9]) →
          (∀ x ∈ inorderTraverse (buildTree [5, 3, 8, 1, 4, 7, 9]), 5 ≤ x) → r = 5) ∧
        (5 ∉ inorderTraverse (buildTree [5, 3, 8, 1, 4, 7, 9]) → r = 5)) ∧
      predecessorOf (buildTree [5, 3, 8, 1, 4, 7, 9]) 5 = some 4 ∧
      predecessorOf (buildTree [5, 3, 8, 1, 4, 7, 9]) 1 = some 1 ∧
      predecessorOf (buildTree [5, 3, 8, 1, 4, 7, 9]) 7 = some 5 ∧
      predecessorOf (buildTree [5, 3, 8, 1, 4, 7, 9]) 6 = some 6 :=
  ⟨by decide, predecessorOf_greatest_less (buildTree [5, 3, 8, 1, 4, 7, 9]) 5 (by decide),
    by decide, by decide, by decide, by decide⟩

/-! ## Level-order traversal -/

theorem pushChild_ne_null (n : Node α) : ∀ m ∈ pushChild n, m ≠ .null := by
  cases n with
  | null => simp [pushChild]
  | mk a l r h v => simp [pushChild]

theorem queueCount_pushChild (n : Node α) : queueCount (pushChild n) = count n := by
  cases n with
  | null => rfl
  | mk a l r h v => simp [pushChild, queueCount]

theorem queueCount_append (q r : List (Node α)) :
    queueCount (q ++ r) = queueCount q + queueCount r := by
  simp [queueCount]

theorem queueCount_cons (n : Node α) (q : List (Node α)) :
    queueCount (n :: q) = count n + queueCount q := by
  simp [queueCount]

theorem nextQueue_cons_mk (a : Nat) (l r : Node α) (h : Int) (v : α) (q : List (Node α)) :
    nextQueue (.mk a l r h v :: q) = pushChild l ++ pushChild r ++ nextQueue q := by
  simp [nextQueue]

theorem nextQueue_ne_null (q : List (Node α)) : ∀ m ∈ nextQueue q, m ≠ .null := by
  induction q with
  | nil => simp [nextQueue]
  | cons n q ih =>
    cases n with
    | null => simpa [nextQueue] using ih
    | mk a l r h v =>
      rw [nextQueue_cons_mk]
      intro m hm
      rcases List.mem_append.mp hm with hm | hm
      · rcases List.mem_append.mp hm with hm | hm
        · exact pushChild_ne_null l m hm
        · exact pushChild_ne_null r m hm
      · exact ih m hm

theorem queueCount_nextQueue (q : List (Node α)) (hq : ∀ m ∈ q, m ≠ .null) :
    queueCount (nextQueue q) + q.length = queueCount q := by
  induction q with
  | nil => rfl
  | cons n q ih =>
    have ih' := ih (fun m hm => hq m (List.mem_cons_of_mem _ hm))
    cases n with
    | null => exact absurd rfl (hq _ (List.mem_cons_self _ _))
    | mk a l r h v =>
      rw [nextQueue_cons_mk, queueCount_append, queueCount_append, queueCount_pushChild,
        queueCount_pushChild, queueCount_cons]
      simp only [count, List.length_cons]
      omega

/-- Dequeuing the nodes of `q` visits their values in order and leaves their
children queued behind `r`. -/
theorem levelLoop_append (q r : List (Node α)) (fuel : Nat) (hq : ∀ m ∈ q, m ≠ .null)
    (hf : q.length ≤ fuel) :
    levelLoop fuel (q ++ r) =
      (levelLoop (fuel - q.length) (r ++ nextQueue q)).map fun vs =>
        q.flatMap (levelValues 0) ++ vs := by
  induction q generalizing r fuel with
  | nil => simp [nextQueue]
  | cons n q ih =>
    cases n with
    | null => exact absurd rfl (hq _ (List.mem_cons_self _ _))
    | mk a l rr h v =>
      cases fuel with
      | zero => simp at hf
      | succ f =>
        simp only [List.length_cons, Nat.add_le_add_iff_right] at hf
        simp only [List.cons_append, levelLoop, List.append_eq]
        have e1 : q ++ r ++ pushChild l ++ pushChild rr =
            q ++ (r ++ pushChild l ++ pushChild rr) := by simp
        rw [e1, ih (r ++ pushChild l ++ pushChild rr) f
          (fun m hm => hq m (List.mem_cons_of_mem _ hm)) hf]
        have e2 : r ++ pushChild l ++ pushChild rr ++ nextQueue q =
            r ++ nextQueue (.mk a l rr h v :: q) := by
          rw [nextQueue_cons_mk]; simp
        have e3 : f + 1 - (q.length + 1) = f - q.length := by omega
        rw [e2, List.length_cons, e3, Option.map_map]
        congr 1

theorem levelValues_nextQueue (d : Nat) (q : List (Node α)) :
    (nextQueue q).flatMap (levelValues d) = q.flatMap (levelValues (d + 1)) := by
  induction q with
  | nil => rfl
  | cons n q ih =>
    cases n with
    | null => simpa [nextQueue, levelValues] using ih
    | mk a l r h v =>
      rw [nextQueue_cons_mk]
      simp only [List.flatMap_append, List.flatMap_cons, ih, levelValues]
      have hp : ∀ m : Node α, (pushChild m).flatMap (levelValues d) = levelValues d m := by
        intro m
        cases m with
        | null => cases d <;> simp [pushChild, levelValues]
        | mk _ _ _ _ _ => simp [pushChild]
      rw [hp, hp]

theorem H_nextQueue (q : List (Node α)) (h : Nat) (hq : ∀ m ∈ q, H m ≤ h + 1) :
    ∀ m ∈ nextQueue q, H m ≤ h := by
  induction q with
  | nil => simp [nextQueue]
  | cons n q ih =>
    have ih' := ih (fun m hm => hq m (List.mem_cons_of_mem _ hm))
    cases n with
    | null => simpa [nextQueue] using ih'
    | mk a l r hh v =>
      have hn := hq _ (List.mem_cons_self _ _)
      simp only [H] at hn
      rw [nextQueue_cons_mk]
      intro m hm
      rcases List.mem_append.mp hm with hm | hm
      · rcases List.mem_append.mp hm with hm | hm
        · cases l with
          | null => simp [pushChild] at hm
          | mk _ _ _ _ _ =>
            simp only [pushChild, List.mem_singleton] at hm
            rw [hm]; omega
        · cases r with
          | null => simp [pushChild] at hm
          | mk _ _ _ _ _ =>
            simp only [pushChild, List.mem_singleton] at hm
            rw [hm]; omega
      · exact ih' m hm

/-- With one unit of fuel per queued node the loop ends, and it visits the
queued trees level by level. -/
theorem levelLoop_levels (h : Nat) (q : List (Node α)) (fuel : Nat)
    (hq : ∀ m ∈ q, m ≠ .null) (hh : ∀ m ∈ q, H m ≤ h) (hf : queueCount q ≤ fuel) :
    levelLoop fuel q =
      some ((List.range h).flatMap fun d => q.flatMap (levelValues d)) := by
  induction h generalizing q fuel with
  | zero =>
    cases q with
    | nil => cases fuel <;> rfl
    | cons n q =>
      have h1 := hq n (List.mem_cons_self _ _)
      have h2 := hh n (List.mem_cons_self _ _)
      cases n with
      | null => exact absurd rfl h1
      | mk a l r hh' v => simp [H] at h2
  | succ h ih =>
    have hcount := queueCount_nextQueue q hq
    have hlen : q.length ≤ fuel := by omega
    have := levelLoop_append q [] fuel hq hlen
    simp only [List.append_nil, List.nil_append] at this
    rw [this, ih (nextQueue q) (fuel - q.length) (nextQueue_ne_null q)
      (H_nextQueue q h hh) (by omega)]
    simp only [Option.map_some', Option.some.injEq]
    rw [List.range_succ_eq_map, List.flatMap_cons, List.flatMap_map]
    congr 1
    apply List.flatMap_congr
    intro d _
    exact levelValues_nextQueue d q

theorem doLevelorder_eq (t : Node α) : doLevelorder t = some (breadthFirst t) := by
  cases t with
  | null => rfl
  | mk a l r h v =>
    have := levelLoop_levels (H (Node.mk a l r h v)) [Node.mk a l r h v]
      (count (Node.mk a l r h v)) (by simp) (by simp) (by simp [queueCount])
    simp only [doLevelorder, this, breadthFirst, Option.some.injEq]
    apply List.flatMap_congr
    intro d _
    simp

theorem levelLoop_perm (fuel : Nat) (q : List (Node α)) (vs : List α)
    (h : levelLoop fuel q = some vs) : List.Perm vs (q.flatMap doInorder) := by
  induction fuel generalizing q vs with
  | zero =>
    cases q with
    | nil => simp only [levelLoop, Option.some.injEq] at h; subst h; simp
    | cons n q => simp [levelLoop] at h
  | succ f ih =>
    cases q with
    | nil => simp only [levelLoop, Option.some.injEq] at h; subst h; simp
    | cons n q =>
      cases n with
      | null => simp [levelLoop] at h
      | mk a l r hh v =>
        simp only [levelLoop] at h
        obtain ⟨vs', hvs', rfl⟩ := Option.map_eq_some'.mp h
        have hp := ih _ _ hvs'
        have hpc : ∀ m : Node α, (pushChild m).flatMap doInorder = doInorder m := by
          intro m
          cases m with
          | null => simp [pushChild, doInorder]
          | mk _ _ _ _ _ => simp [pushChild]
        simp only [List.flatMap_append, hpc] at hp
        simp only [List.flatMap_cons, doInorder]
        refine (List.Perm.cons v hp).trans ?_
        have e : v :: (q.flatMap doInorder ++ doInorder l ++ doInorder r) =
            [v] ++ (q.flatMap doInorder ++ (doInorder l ++ doInorder r)) := by simp
        rw [e]
        refine (List.perm_append_comm_assoc _ _ _).trans ?_
        refine List.perm_append_comm.trans ?_
        refine List.Perm.append_right _ ?_
        have e2 : doInorder l ++ v :: doInorder r = doInorder l ++ ([v] ++ doInorder r) := rfl
        rw [e2]
        exact (List.perm_append_comm_assoc _ _ _)

theorem breadthFirst_perm (t : Node α) : List.Perm (breadthFirst t) (doInorder t) := by
  have h := doLevelorder_eq t
  cases t with
  | null => simp [breadthFirst, H, doInorder]
  | mk a l r hh v =>
    simp only [doLevelorder] at h
    simpa using levelLoop_perm _ _ _ h

/-- C15: on every tree `levelorderTraverse` ends and hands to the visitor the
values of the nodes in breadth-first order, depth by depth and from left to
right inside a depth; every node is visited exactly once (the sequence is a
permutation of the in-order one and its length is the node count), and on
the empty tree the visitor is not invoked. -/
theorem levelorder_breadth_first (t : AVL α) :
    levelorderTraverse t = some (breadthFirst t.m_root) ∧
      breadthFirst t.m_root =
        (List.range (H t.m_root)).flatMap (fun d => levelValues d t.m_root) ∧
      List.Perm (breadthFirst t.m_root) (inorderTraverse t) ∧
      (breadthFirst t.m_root).length = count t.m_root ∧
      levelorderTraverse (empty_tree : AVL α) = some [] := by
  refine ⟨doLevelorder_eq _, rfl, breadthFirst_perm _, ?_, rfl⟩
  rw [List.Perm.length_eq (breadthFirst_perm _), count_eq_length]

/-! ## Claims settled by evaluation -/

/-- C11 fails on the code.  `doInsert` stores the new node in `m_root` only
when `empty()` holds, that is when `m_size == 0`, and `insert` discards the
pointer `doInsert` returns.  After `remove(1)` on the freshly constructed
tree `m_size` is `2 ^ 64 - 1` and `m_root` is `nullptr`; `insert(5)` then
leaves `m_root` at `nullptr`, so `search(5)` is false.  After `insert(5)`,
`remove(7)` the tree holds 5 with `m_size == 0`; `insert(3)` then makes
`m_root` point to the new leaf 3, so `search(5)`, true before the call, is
false after it. -/
theorem insert_after_absent_remove_loses_values :
    (Reach (⟨.null, 2 ^ 64 - 1⟩ : AVL Nat) ∧
        insert (⟨.null, 2 ^ 64 - 1⟩ : AVL Nat) 5 = some ⟨.null, 0⟩ ∧
        search (⟨.null, 0⟩ : AVL Nat) 5 = false) ∧
      (Reach (⟨.mk 1 .null .null 1 5, 0⟩ : AVL Nat) ∧
        search (⟨.mk 1 .null .null 1 5, 0⟩ : AVL Nat) 5 = true ∧
        insert (⟨.mk 1 .null .null 1 5, 0⟩ : AVL Nat) 3 =
          some ⟨.mk 2 .null .null 1 3, 1⟩ ∧
        search (⟨.mk 2 .null .null 1 3, 1⟩ : AVL Nat) 5 = false ∧
        search (⟨.mk 2 .null .null 1 3, 1⟩ : AVL Nat) 3 = true) := by
  refine ⟨⟨?_, by decide, by decide⟩, ⟨?_, by decide, by decide, by decide, by decide⟩⟩
  · exact Reach.remove (t := empty_tree) 1 Reach.init (by decide)
  · exact Reach.remove (t := ⟨.mk 1 .null .null 1 5, 1⟩) 7
      (Reach.insert (t := empty_tree) 5 Reach.init (by decide)) (by decide)

/-- C16: inserting 1,2,...,k in ascending order into the empty tree, for
every `k` from 1 to 7, returns a tree whose actual height and whose cached
root height are at most `⌈log2(k+1)⌉ + 1`. -/
theorem ascending_inserts_height (k : Nat) (h1 : 1 ≤ k) (h7 : k ≤ 7) :
    ∃ t, insertAll (empty_tree : AVL Nat) (List.range' 1 k) = some t ∧
      H t.m_root ≤ Nat.clog 2 (k + 1) + 1 ∧
      heightOfNode t.m_root ≤ ((Nat.clog 2 (k + 1) + 1 : Nat) : Int) := by
  have hlog1 : 1 ≤ Nat.clog 2 (k + 1) :=
    (Nat.pow_lt_iff_lt_clog (by omega)).mp (by omega)
  have hlog2 : 2 ≤ k → 2 ≤ Nat.clog 2 (k + 1) := fun hk =>
    (Nat.pow_lt_iff_lt_clog (by omega)).mp (by omega)
  have hev : insertAll (empty_tree : AVL Nat) (List.range' 1 k) =
      some (buildTree (List.range' 1 k)) ∧
      H (buildTree (List.range' 1 k)).m_root ≤ 3 ∧
      heightOfNode (buildTree (List.range' 1 k)).m_root ≤ 3 ∧
      (k = 1 → H (buildTree (List.range' 1 k)).m_root ≤ 2 ∧
        heightOfNode (buildTree (List.range' 1 k)).m_root ≤ 2) := by
    interval_cases k <;> decide
  obtain ⟨hins, hH, hc, hk1⟩ := hev
  refine ⟨_, hins, ?_, ?_⟩
  · rcases Nat.lt_or_ge k 2 with hk | hk
    · have := (hk1 (by omega)).1
      omega
    · have := hlog2 hk
      omega
  · rcases Nat.lt_or_ge k 2 with hk | hk
    · have := (hk1 (by omega)).2
      omega
    · have := hlog2 hk
      omega

/-- Witness for C16: after the seven inserts the height is 3, and
`⌈log2 8⌉ + 1` is 4. -/
theorem ascending_inserts_height_witness :
    1 ≤ 7 ∧ 7 ≤ 7 ∧
      (∃ t, insertAll (empty_tree : AVL Nat) (List.range' 1 7) = some t ∧
        H t.m_root ≤ Nat.clog 2 (7 + 1) + 1 ∧
        heightOfNode t.m_root ≤ ((Nat.clog 2 (7 + 1) + 1 : Nat) : Int)) ∧
      (insertAll (empty_tree : AVL Nat) [1, 2, 3, 4, 5, 6, 7]).map (fun t => H t.m_root) =
        some 3 :=
  ⟨by decide, by decide, ascending_inserts_height 7 (by decide) (by decide), by decide⟩

/-- The right rotation refreshes both heights: the node rotated down and the
returned subtree root have cached height `1 + max` of their children. -/
theorem rightRotate_heights (a la : Nat) (ll lr r : Node α) (h lh : Int) (v lv : α)
    (s : Self) :
    ∃ h1 h2 s', rightRotate (.mk a (.mk la ll lr lh lv) r h v) s =
        some (.mk la ll (.mk a lr r h1 v) h2 lv, s') ∧
      h1 = Max.max (heightOfNode lr) (heightOfNode r) + 1 ∧
      h2 = Max.max (heightOfNode ll) h1 + 1 :=
  ⟨_, _, _, rfl, rfl, rfl⟩

/-- C17 fails on the code for `leftRotate`.  On the node 10 with no left
child and right child 12 (children 11 and 13, all cached heights exact) the
call returns the node 12, whose children are now 10 (height 2) and 13
(height 1) while its cached height is still 2, not `1 + max 2 1 = 3`:
`leftRotate` refreshes `node->right` (the node 11) where `rightRotate`
refreshes `nodeLeft`. -/
theorem leftRotate_keeps_stale_height :
    Exact (.mk 2 (.mk 3 .null .null 1 11) (.mk 4 .null .null 1 13) 2 (12 : Nat)) ∧
      leftRotate
          (.mk 1 .null (.mk 2 (.mk 3 .null .null 1 11) (.mk 4 .null .null 1 13) 2 12) 3
            (10 : Nat)) ⟨none, 4⟩ =
        some (.mk 2 (.mk 1 .null (.mk 3 .null .null 1 11) 2 10) (.mk 4 .null .null 1 13) 2 12,
          ⟨none, 4⟩) ∧
      ¬ Exact (.mk 2 (.mk 1 .null (.mk 3 .null .null 1 11) 2 (10 : Nat))
          (.mk 4 .null .null 1 13) 2 12) ∧
      (2 : Int) ≠ Max.max
        (heightOfNode (.mk 1 .null (.mk 3 .null .null 1 11) 2 (10 : Nat)))
        (heightOfNode (.mk 4 .null .null 1 (13 : Nat))) + 1 := by
  refine ⟨by decide, by decide, by decide, by decide⟩

theorem reachPresent_insertAll [LinearOrder α] (xs : List α) {t t' : AVL α} {n : Nat}
    (hr : ReachPresent t n) (h : insertAll t xs = some t') :
    ReachPresent t' (n + xs.length) := by
  induction xs generalizing t n with
  | nil =>
    simp only [insertAll, List.foldl_nil, Option.some.injEq] at h
    subst h
    exact hr
  | cons x xs ih =>
    cases h1 : insert t x with
    | none =>
      have : insertAll t (x :: xs) = none := by
        simp only [insertAll, List.foldl_cons, Option.some_bind, h1]
        clear h ih
        induction xs with
        | nil => rfl
        | cons y ys ih2 => simpa [List.foldl_cons] using ih2
      rw [this] at h
      cases h
    | some t1 =>
      rw [insertAll_cons t t1 x xs h1] at h
      have := ih (ReachPresent.insert x hr h1) h
      simpa [Nat.add_assoc, Nat.add_comm 1] using this

/-- C18 fails on the code.  The state reached by inserting
8,3,10,2,6,9,12,1,5,7,11,13,4 and removing the present value 9 holds 11;
`insert(11)` on it creates no node and keeps `size()`, but the ancestors of
the node 11 are revisited: the node 12 gets its height refreshed from the
stale 2 to 3, the node 8 then has balance factor -2 and is rebalanced by a
right-left double rotation, so the shape of the tree changes.  The stale
height comes from `leftRotate`, which does not refresh the height of the
subtree root it returns (the defect behind C4 and C17). -/
theorem duplicate_insert_rotates :
    ∃ t t', ReachPresent t 14 ∧ 11 ∈ inorderTraverse t ∧ insert t 11 = some t' ∧
      size t' = size t ∧ inorderTraverse t' = inorderTraverse t ∧
      shape t.m_root =
        .node (.node (.node (.node .nil 1 .nil) 2 .nil) 3 (.node (.node .nil 4 .nil) 5 .nil))
          6 (.node (.node .nil 7 .nil) 8
            (.node (.node .nil 10 (.node .nil 11 .nil)) 12 (.node .nil 13 .nil))) ∧
      shape t'.m_root =
        .node (.node (.node (.node .nil 1 .nil) 2 .nil) 3 (.node (.node .nil 4 .nil) 5 .nil))
          6 (.node (.node (.node .nil 7 .nil) 8 .nil) 10
            (.node (.node .nil 11 .nil) 12 (.node .nil 13 .nil))) ∧
      shape t'.m_root ≠ shape t.m_root := by
  have hb : insertAll (empty_tree : AVL Nat) [8, 3, 10, 2, 6, 9, 12, 1, 5, 7, 11, 13, 4] =
      some (buildTree [8, 3, 10, 2, 6, 9, 12, 1, 5, 7, 11, 13, 4]) := by decide
  have hr := reachPresent_insertAll _ ReachPresent.init hb
  have hrem : (remove (buildTree [8, 3, 10, 2, 6, 9, 12, 1, 5, 7, 11, 13, 4]) 9).isSome := by
    decide
  obtain ⟨t, ht⟩ := Option.isSome_iff_exists.mp hrem
  have hins : ((remove (buildTree [8, 3, 10, 2, 6, 9, 12, 1, 5, 7, 11, 13, 4]) 9).bind
      fun t => insert t 11).isSome := by decide
  rw [ht] at hins
  obtain ⟨t', ht'⟩ := Option.isSome_iff_exists.mp hins
  have hall : ((remove (buildTree [8, 3, 10, 2, 6, 9, 12, 1, 5, 7, 11, 13, 4]) 9).bind
      fun t => (insert t 11).map fun t' =>
        (decide (11 ∈ inorderTraverse t), decide (size t' = size t),
          decide (inorderTraverse t' = inorderTraverse t), shape t.m_root, shape t'.m_root)) =
      some (true, true, true,
        .node (.node (.node (.node .nil 1 .nil) 2 .nil) 3 (.node (.node .nil 4 .nil) 5 .nil))
          6 (.node (.node .nil 7 .nil) 8
            (.node (.node .nil 10 (.node .nil 11 .nil)) 12 (.node .nil 13 .nil))),
        .node (.node (.node (.node .nil 1 .nil) 2 .nil) 3 (.node (.node .nil 4 .nil) 5 .nil))
          6 (.node (.node (.node .nil 7 .nil) 8 .nil) 10
            (.node (.node .nil 11 .nil) 12 (.node .nil 13 .nil)))) := by decide
  rw [ht] at hall
  simp only [Option.some_bind] at hall ht'
  rw [ht'] at hall
  simp only [Option.map_some', Option.some.injEq, Prod.mk.injEq, decide_eq_true_eq] at hall
  obtain ⟨h1, h2, h3, h4, h5⟩ := hall
  refine ⟨t, t', ?_, h1, ht', h2, h3, h4, h5, ?_⟩
  · exact ReachPresent.remove 9 hr (by decide) ht
  · rw [h4, h5]; decide

/-- C6 fails on the code.  The calls `insert` of 0,1,2,5,6,7,3,4,8,10,11,9,12,
then `remove(0)`, `remove(5)`, `remove(8)` (each value present when removed)
and `insert(5)` all return, and reach the 11-node tree with root 6 shown in
the statement, in which the node 3 has the left child 1 and no right child
while its sibling 5 is a leaf.  A further `insert(5)` meets the stored 5,
returns to the node 4, refreshes its height to 4 and finds the balance factor
2; `makeTreeBalanced` takes the left-right case and calls `leftRotate` on
the node 3, which reads `nodeRight->left` through `nullptr`: the call has no
defined result, so no traversal is guaranteed after it.  The unbalanced node
comes from the stale height that `leftRotate` leaves in the subtree root it
returns (the defect behind C4, C17 and C18). -/
theorem reachable_insert_reads_null :
    ReachPresent
        (⟨.mk 4
            (.mk 8 (.mk 7 (.mk 2 .null (.mk 3 .null .null 1 2) 2 1) .null 3 3)
              (.mk 14 .null .null 1 5) 4 4)
            (.mk 9 (.mk 6 .null .null 1 7)
              (.mk 11 (.mk 10 .null .null 1 10) (.mk 13 .null .null 1 12) 2 11) 3 9)
            5 6, 11⟩ : AVL Nat) 17 ∧
      5 ∈ inorderTraverse
        (⟨.mk 4
            (.mk 8 (.mk 7 (.mk 2 .null (.mk 3 .null .null 1 2) 2 1) .null 3 3)
              (.mk 14 .null .null 1 5) 4 4)
            (.mk 9 (.mk 6 .null .null 1 7)
              (.mk 11 (.mk 10 .null .null 1 10) (.mk 13 .null .null 1 12) 2 11) 3 9)
            5 6, 11⟩ : AVL Nat) ∧
      insert
        (⟨.mk 4
            (.mk 8 (.mk 7 (.mk 2 .null (.mk 3 .null .null 1 2) 2 1) .null 3 3)
              (.mk 14 .null .null 1 5) 4 4)
            (.mk 9 (.mk 6 .null .null 1 7)
              (.mk 11 (.mk 10 .null .null 1 10) (.mk 13 .null .null 1 12) 2 11) 3 9)
            5 6, 11⟩ : AVL Nat) 5 = none ∧
      getBalance
        (.mk 8 (.mk 7 (.mk 2 .null (.mk 3 .null .null 1 2) 2 1) .null 3 3)
          (.mk 14 .null .null 1 5) 4 (4 : Nat)) = 2 ∧
      leftRotate (.mk 7 (.mk 2 .null (.mk 3 .null .null 1 2) 2 1) .null 3 (3 : Nat))
        ⟨some 4, 10⟩ = none := by
  have h0 : insertAll (empty_tree : AVL Nat) [0, 1, 2, 5, 6, 7, 3, 4, 8, 10, 11, 9, 12] =
      some (buildTree [0, 1, 2, 5, 6, 7, 3, 4, 8, 10, 11, 9, 12]) := by decide
  have h1 : remove (buildTree [0, 1, 2, 5, 6, 7, 3, 4, 8, 10, 11, 9, 12]) 0 =
      some ⟨.mk 9
        (.mk 4 (.mk 7 (.mk 2 .null (.mk 3 .null .null 1 2) 2 1) (.mk 8 .null .null 1 4) 2 3)
          (.mk 6 (.mk 5 .null .null 1 6) .null 2 7) 3 5)
        (.mk 10 (.mk 12 .null .null 1 9) (.mk 11 .null (.mk 13 .null .null 1 12) 2 11) 3 10)
        4 8, 12⟩ := by decide
  have h2 : remove (⟨.mk 9
        (.mk 4 (.mk 7 (.mk 2 .null (.mk 3 .null .null 1 2) 2 1) (.mk 8 .null .null 1 4) 2 3)
          (.mk 6 (.mk 5 .null .null 1 6) .null 2 7) 3 5)
        (.mk 10 (.mk 12 .null .null 1 9) (.mk 11 .null (.mk 13 .null .null 1 12) 2 11) 3 10)
        4 8, 12⟩ : AVL Nat) 5 =
      some ⟨.mk 9
        (.mk 4 (.mk 7 (.mk 2 .null (.mk 3 .null .null 1 2) 2 1) (.mk 8 .null .null 1 4) 2 3)
          (.mk 6 .null .null 1 7) 3 6)
        (.mk 10 (.mk 12 .null .null 1 9) (.mk 11 .null (.mk 13 .null .null 1 12) 2 11) 3 10)
        4 8, 11⟩ := by decide
  have h3 : remove (⟨.mk 9
        (.mk 4 (.mk 7 (.mk 2 .null (.mk 3 .null .null 1 2) 2 1) (.mk 8 .null .null 1 4) 2 3)
          (.mk 6 .null .null 1 7) 3 6)
        (.mk 10 (.mk 12 .null .null 1 9) (.mk 11 .null (.mk 13 .null .null 1 12) 2 11) 3 10)
        4 8, 11⟩ : AVL Nat) 8 =
      some ⟨.mk 9
        (.mk 4 (.mk 7 (.mk 2 .null (.mk 3 .null .null 1 2) 2 1) (.mk 8 .null .null 1 4) 2 3)
          (.mk 6 .null .null 1 7) 3 6)
        (.mk 11 (.mk 10 .null .null 1 10) (.mk 13 .null .null 1 12) 2 11)
        4 9, 10⟩ := by decide
  have h4 : insert (⟨.mk 9
        (.mk 4 (.mk 7 (.mk 2 .null (.mk 3 .null .null 1 2) 2 1) (.mk 8 .null .null 1 4) 2 3)
          (.mk 6 .null .null 1 7) 3 6)
        (.mk 11 (.mk 10 .null .null 1 10) (.mk 13 .null .null 1 12) 2 11)
        4 9, 10⟩ : AVL Nat) 5 =
      some ⟨.mk 4
        (.mk 8 (.mk 7 (.mk 2 .null (.mk 3 .null .null 1 2) 2 1) .null 3 3)
          (.mk 14 .null .null 1 5) 4 4)
        (.mk 9 (.mk 6 .null .null 1 7)
          (.mk 11 (.mk 10 .null .null 1 10) (.mk 13 .null .null 1 12) 2 11) 3 9)
        5 6, 11⟩ := by decide
  refine ⟨?_, by decide, by decide, by decide, by decide⟩
  exact ReachPresent.insert 5
    (ReachPresent.remove 8
      (ReachPresent.remove 5
        (ReachPresent.remove 0 (reachPresent_insertAll _ ReachPresent.init h0) (by decide) h1)
        (by decide) h2)
      (by decide) h3)
    h4

/-- C20: on a well-formed tree neither `insert(v)` nor `remove(v)`
dereferences an absent node.  In the embedding a rotation applied to a node
whose unchecked child is absent, and a read of `node->left->value` or
`node->right->value` through an absent child, are exactly the points where
a mutator has no result; both calls have one. -/
theorem no_absent_node_dereferenced [LinearOrder α] (t : AVL α) (v : α)
    (hw : WellFormed t) :
    (∃ t', insert t v = some t') ∧ (∃ t', remove t v = some t') := by
  obtain ⟨-, he, hbal, hs, -, hnd⟩ := hw
  obtain ⟨t1, h1, -⟩ := insert_total t v he hbal hs hnd
  obtain ⟨t2, h2, -⟩ := remove_total t v (exact_posHeights he)
  exact ⟨⟨t1, h1⟩, ⟨t2, h2⟩⟩

/-- Witness for C20: the well-formed tree built from 1,2, where `insert(3)`
rotates the root to the left. -/
theorem no_absent_node_dereferenced_witness :
    WellFormed (buildTree [1, 2]) ∧
      ((∃ t', insert (buildTree [1, 2]) 3 = some t') ∧
        (∃ t', remove (buildTree [1, 2]) 3 = some t')) :=
  ⟨by decide, no_absent_node_dereferenced (buildTree [1, 2]) 3 (by decide)⟩

/-! ## Copy: insertion in level order -/

theorem sHeight_shape (t : Node α) : sHeight (shape t) = H t := by
  induction t with
  | null => rfl
  | mk a l r h v ihl ihr => simp only [shape, sHeight, H, ihl, ihr]

theorem sBalanced_shape (t : Node α) : sBalanced (shape t) ↔ HBalanced t := by
  induction t with
  | null => simp [shape, sBalanced, HBalanced]
  | mk a l r h v ihl ihr =>
    simp only [shape, sBalanced, HBalanced, ihl, ihr, sHeight_shape]

theorem exact_height_eq_H {t : Node α} (he : Exact t) : heightOfNode t = (H t : Int) := by
  induction t with
  | null => rfl
  | mk a l r h v ihl ihr =>
    obtain ⟨hel, her, hh⟩ := he
    simp only [heightOfNode_mk, H, hh, ihl hel, ihr her]
    omega

theorem shape_doInorder {u u' : Node α} (h : shape u = shape u') :
    doInorder u = doInorder u' := by
  induction u generalizing u' with
  | null =>
    cases u' with
    | null => rfl
    | mk _ _ _ _ _ => simp [shape] at h
  | mk a l r hh v ihl ihr =>
    cases u' with
    | null => simp [shape] at h
    | mk a' l' r' hh' v' =>
      simp only [shape, Shape.node.injEq] at h
      simp only [doInorder, ihl h.1, ihr h.2.2, h.2.1]

/-- When the shape obtained by plain insertion is AVL-balanced, `doInsert`
on a tree with exact cached heights rotates nothing: the returned tree has
that shape, and exact cached heights again. -/
theorem doInsert_no_rotation [LinearOrder α] (fresh : Nat) (value : α) (u : Node α)
    (s : Self) (he : Exact u) (hb : sBalanced (sInsert value (shape u))) :
    ∃ p, doInsert fresh value u s = some p ∧ shape p.1 = sInsert value (shape u) ∧
      Exact p.1 := by
  induction u generalizing s with
  | null => exact ⟨_, rfl, rfl, ⟨trivial, trivial, rfl⟩⟩
  | mk a l r h x ihl ihr =>
    obtain ⟨hel, her, hh⟩ := he
    simp only [shape, sInsert] at hb ⊢
    unfold doInsert
    split_ifs at hb ⊢ with h1 h2
    · obtain ⟨hbl, hbr, hb1, hb2⟩ := hb
      obtain ⟨q, hq, hqs, hqe⟩ := ihr s her hbr
      rw [← hqs, sHeight_shape, sHeight_shape] at hb1 hb2
      have e1 := exact_height_eq_H hel
      have e2 := exact_height_eq_H hqe
      refine ⟨(.mk a l q.1 (Max.max (heightOfNode l) (heightOfNode q.1) + 1) x, q.2), ?_, ?_,
        ⟨hel, hqe, rfl⟩⟩
      · rw [hq, Option.some_bind]
        simp only [doInsertTail, updateNodeHeight_mk, getBalance_mk]
        rw [if_neg]
        rw [not_lt, abs_le]
        constructor <;> omega
      · simp only [shape, hqs]
    · obtain ⟨hbl, hbr, hb1, hb2⟩ := hb
      obtain ⟨q, hq, hqs, hqe⟩ := ihl s hel hbl
      rw [← hqs, sHeight_shape, sHeight_shape] at hb1 hb2
      have e1 := exact_height_eq_H her
      have e2 := exact_height_eq_H hqe
      refine ⟨(.mk a q.1 r (Max.max (heightOfNode q.1) (heightOfNode r) + 1) x, q.2), ?_, ?_,
        ⟨hqe, her, rfl⟩⟩
      · rw [hq, Option.some_bind]
        simp only [doInsertTail, updateNodeHeight_mk, getBalance_mk]
        rw [if_neg]
        rw [not_lt, abs_le]
        constructor <;> omega
      · simp only [shape, hqs]
    · exact ⟨_, rfl, rfl, ⟨hel, her, hh⟩⟩

theorem levelValues_null (d : Nat) : levelValues d (.null : Node α) = [] := by
  cases d <;> rfl

theorem levelValues_length_eq_zero (d : Nat) (t : Node α) :
    (levelValues d t).length = 0 ↔ H t ≤ d := by
  induction d generalizing t with
  | zero =>
    cases t with
    | null => simp [levelValues, H]
    | mk a l r h v => simp [levelValues, H]
  | succ d ih =>
    cases t with
    | null => simp [levelValues, H]
    | mk a l r h v =>
      simp only [levelValues, List.length_append, H]
      have := ih l
      have := ih r
      omega

theorem levelValues_subset (d : Nat) (t : Node α) :
    ∀ x ∈ levelValues d t, x ∈ doInorder t := by
  induction d generalizing t with
  | zero =>
    cases t with
    | null => simp [levelValues]
    | mk a l r h v => simp [levelValues, doInorder]
  | succ d ih =>
    cases t with
    | null => simp [levelValues]
    | mk a l r h v =>
      intro x hx
      simp only [levelValues, List.mem_append] at hx
      simp only [doInorder, List.mem_append, List.mem_cons]
      rcases hx with hx | hx
      · exact Or.inl (ih l x hx)
      · exact Or.inr (Or.inr (ih r x hx))

theorem truncNode_null (d k : Nat) : truncNode d k (.null : Node α) = .null := by
  cases d <;> rfl

theorem truncNode_saturated (d k : Nat) (t : Node α) (hk : (levelValues d t).length ≤ k) :
    truncNode d k t = truncNode d (k + 1) t := by
  induction d generalizing t k with
  | zero =>
    cases t with
    | null => rfl
    | mk a l r h v =>
      simp only [levelValues, List.length_singleton] at hk
      simp only [truncNode]
      rw [if_neg (by omega), if_neg (by omega)]
  | succ d ih =>
    cases t with
    | null => rfl
    | mk a l r h v =>
      simp only [levelValues, List.length_append] at hk
      simp only [truncNode]
      rw [ih k l (by omega), ih (k - (levelValues d l).length) r (by omega)]
      congr 2
      omega

theorem truncNode_next_level (d k : Nat) (t : Node α) (hk : (levelValues d t).length ≤ k) :
    truncNode d k t = truncNode (d + 1) 0 t := by
  induction d generalizing t k with
  | zero =>
    cases t with
    | null => rfl
    | mk a l r h v =>
      simp only [levelValues, List.length_singleton] at hk
      simp only [truncNode]
      rw [if_neg (by omega)]
      cases l <;> cases r <;> simp [truncNode]
  | succ d ih =>
    cases t with
    | null => rfl
    | mk a l r h v =>
      simp only [levelValues, List.length_append] at hk
      rw [truncNode, truncNode, ih k l (by omega),
        ih (k - (levelValues d l).length) r (by omega)]
      simp

theorem truncNode_all (d : Nat) (t : Node α) (hd : H t ≤ d) : truncNode d 0 t = t := by
  induction d generalizing t with
  | zero =>
    cases t with
    | null => rfl
    | mk a l r h v => simp [H] at hd
  | succ d ih =>
    cases t with
    | null => rfl
    | mk a l r h v =>
      simp only [H] at hd
      simp only [truncNode, Nat.zero_sub]
      rw [ih l (by omega), ih r (by omega)]

theorem H_truncNode (d k : Nat) (t : Node α) :
    H (truncNode d k t) = if 0 < k ∧ d < H t then d + 1 else Min.min d (H t) := by
  induction d generalizing t k with
  | zero =>
    cases t with
    | null => simp [truncNode, H]
    | mk a l r h v =>
      simp only [truncNode, H]
      by_cases hk : k = 0
      · simp [hk, H]
      · rw [if_neg hk, if_pos ⟨by omega, by omega⟩]
        simp [H]
  | succ d ih =>
    cases t with
    | null => simp [truncNode, H]
    | mk a l r h v =>
      simp only [truncNode, H, ih]
      have hw := levelValues_length_eq_zero d l
      split_ifs <;> omega

theorem HBalanced_truncNode (d k : Nat) (t : Node α) (hb : HBalanced t) :
    HBalanced (truncNode d k t) := by
  induction d generalizing t k with
  | zero =>
    cases t with
    | null => trivial
    | mk a l r h v =>
      simp only [truncNode]
      split_ifs
      · trivial
      · exact ⟨trivial, trivial, by simp [H], by simp [H]⟩
  | succ d ih =>
    cases t with
    | null => trivial
    | mk a l r h v =>
      obtain ⟨hbl, hbr, h1, h2⟩ := hb
      refine ⟨ih _ l hbl, ih _ r hbr, ?_, ?_⟩ <;>
      · simp only [H_truncNode]
        have hw := levelValues_length_eq_zero d l
        split_ifs <;> omega

theorem count_truncNode_le (d k : Nat) (t : Node α) : count (truncNode d k t) ≤ count t := by
  induction d generalizing t k with
  | zero =>
    cases t with
    | null => exact Nat.le_refl _
    | mk a l r h v =>
      simp only [truncNode]
      split_ifs
      · exact Nat.zero_le _
      · simp only [count]
        omega
  | succ d ih =>
    cases t with
    | null => exact Nat.le_refl _
    | mk a l r h v =>
      simp only [truncNode, count]
      have := ih k l
      have := ih (k - (levelValues d l).length) r
      omega

/-- Plain insertion of the next value of breadth-first order into the part
reached so far gives the part reached one node later. -/
theorem sInsert_truncNode [LinearOrder α] (d k : Nat) (t : Node α) (x : α) (hb : BST t)
    (hx : (levelValues d t)[k]? = some x) :
    sInsert x (shape (truncNode d k t)) = shape (truncNode d (k + 1) t) := by
  induction d generalizing t k with
  | zero =>
    cases t with
    | null => simp [levelValues] at hx
    | mk a l r h v =>
      simp only [levelValues] at hx
      cases k with
      | zero =>
        simp only [List.getElem?_cons_zero, Option.some.injEq] at hx
        subst hx
        simp [truncNode, shape, sInsert]
      | succ k => simp at hx
  | succ d ih =>
    cases t with
    | null => simp [levelValues] at hx
    | mk a l r h v =>
      obtain ⟨hbl, hbr, hl, hr⟩ := hb
      simp only [levelValues] at hx
      simp only [truncNode, shape, sInsert]
      by_cases hk : k < (levelValues d l).length
      · rw [List.getElem?_append_left hk] at hx
        have hxv : x < v := hl x (levelValues_subset d l x (List.getElem?_mem hx))
        rw [if_neg (not_lt.mpr hxv.le), if_pos hxv, ih k l hbl hx]
        have e : k + 1 - (levelValues d l).length = k - (levelValues d l).length := by omega
        rw [e]
      · rw [List.getElem?_append_right (not_lt.mp hk)] at hx
        have hxv : v < x := hr x (levelValues_subset d r x (List.getElem?_mem hx))
        rw [if_pos hxv, ih _ r hbr hx, ← truncNode_saturated d k l (not_lt.mp hk)]
        have e : k + 1 - (levelValues d l).length = k - (levelValues d l).length + 1 := by
          omega
        rw [e]

/-- One step of the replay: with the part reached so far in the copy, `insert`
of the next value of breadth-first order gives the part reached one node later. -/
theorem insert_truncNode [LinearOrder α] (d k : Nat) (T : Node α) (c : AVL α) (x : α)
    (hb : BST T) (hbal : HBalanced T) (hc : count T < SIZE_MOD) (hw : WellFormed c)
    (hs : shape c.m_root = shape (truncNode d k T))
    (hx : (levelValues d T)[k]? = some x) :
    ∃ c', insert c x = some c' ∧ WellFormed c' ∧
      shape c'.m_root = shape (truncNode d (k + 1) T) := by
  obtain ⟨hcb, hce, hcbal, hcs, hclt, hcnd⟩ := hw
  have hA := sInsert_truncNode d k T x hb hx
  have hB : sBalanced (sInsert x (shape c.m_root)) := by
    rw [hs, hA, sBalanced_shape]
    exact HBalanced_truncNode d (k + 1) T hbal
  obtain ⟨p, hp, hps, hpe⟩ :=
    doInsert_no_rotation (freshAddr c.m_root) x c.m_root ⟨addrOf c.m_root, c.m_size⟩ hce hB
  have hins : insert c x = some ⟨p.1, incSize p.2.m_size⟩ := by
    rw [insert_eq c x hcs hcnd, hp]
    rfl
  have hshape : shape p.1 = shape (truncNode d (k + 1) T) := by rw [hps, hs, hA]
  have hcount : count p.1 < SIZE_MOD := by
    rw [count_eq_length, shape_doInorder hshape, ← count_eq_length]
    exact lt_of_le_of_lt (count_truncNode_le d (k + 1) T) hc
  obtain ⟨hin, -, -, -⟩ := insert_some hcb hcs hclt hcnd hins
  have hroom : x ∈ inorderTraverse c ∨ c.m_size + 1 < SIZE_MOD := by
    by_cases hm : x ∈ inorderTraverse c
    · exact Or.inl hm
    · right
      have hl := congrArg List.length hin
      rw [insSorted_length, if_neg hm] at hl
      simp only [inorderTraverse] at hl
      rw [← count_eq_length, ← count_eq_length] at hl
      omega
  obtain ⟨c', hc', hw', -⟩ := insert_wellFormed c x ⟨hcb, hce, hcbal, hcs, hclt, hcnd⟩ hroom
  refine ⟨c', hc', hw', ?_⟩
  rw [hins] at hc'
  rw [← Option.some.inj hc']
  exact hshape

theorem insertAll_append [LinearOrder α] (t : AVL α) (xs ys : List α) :
    insertAll t (xs ++ ys) = (insertAll t xs).bind fun s => insertAll s ys := by
  unfold insertAll
  rw [List.foldl_append]
  cases h : List.foldl (fun o v => o.bind fun s => insert s v) (some t) xs with
  | some s => rfl
  | none =>
    simp only [Option.none_bind]
    induction ys with
    | nil => rfl
    | cons y ys ih => simpa using ih

/-- The rest of one level of the replay. -/
theorem insertAll_level [LinearOrder α] (d : Nat) (T : Node α) (hb : BST T)
    (hbal : HBalanced T) (hc : count T < SIZE_MOD) (n k : Nat) (c : AVL α)
    (hn : k + n = (levelValues d T).length) (hw : WellFormed c)
    (hs : shape c.m_root = shape (truncNode d k T)) :
    ∃ c', insertAll c ((levelValues d T).drop k) = some c' ∧ WellFormed c' ∧
      shape c'.m_root = shape (truncNode (d + 1) 0 T) := by
  induction n generalizing k c with
  | zero =>
    refine ⟨c, ?_, hw, ?_⟩
    · rw [List.drop_of_length_le (by omega)]
      rfl
    · rw [hs, truncNode_next_level d k T (by omega)]
  | succ n ih =>
    have hk : k < (levelValues d T).length := by omega
    have hx : (levelValues d T)[k]? = some ((levelValues d T)[k]) :=
      List.getElem?_eq_getElem hk
    obtain ⟨c1, h1, hw1, hs1⟩ := insert_truncNode d k T c _ hb hbal hc hw hs hx
    obtain ⟨c', h', hw', hs'⟩ := ih (k + 1) c1 (by omega) hw1 hs1
    refine ⟨c', ?_, hw', hs'⟩
    rw [List.drop_eq_getElem_cons hk, insertAll_cons c c1 _ _ h1]
    exact h'

/-- The replay of `n` whole levels from depth `d` on. -/
theorem insertAll_levels [LinearOrder α] (T : Node α) (hb : BST T) (hbal : HBalanced T)
    (hc : count T < SIZE_MOD) (n d : Nat) (c : AVL α) (hw : WellFormed c)
    (hs : shape c.m_root = shape (truncNode d 0 T)) :
    ∃ c', insertAll c ((List.range' d n).flatMap fun j => levelValues j T) = some c' ∧
      WellFormed c' ∧ shape c'.m_root = shape (truncNode (d + n) 0 T) := by
  induction n generalizing d c with
  | zero => exact ⟨c, rfl, hw, hs⟩
  | succ n ih =>
    obtain ⟨c1, h1, hw1, hs1⟩ :=
      insertAll_level d T hb hbal hc (levelValues d T).length 0 c (by omega) hw hs
    obtain ⟨c', h', hw', hs'⟩ := ih (d + 1) c1 hw1 hs1
    refine ⟨c', ?_, hw', ?_⟩
    · rw [List.range'_succ, List.flatMap_cons, insertAll_append]
      rw [List.drop_zero] at h1
      rw [h1]
      exact h'
    · rw [hs']
      congr 2
      omega

theorem insertAll_breadthFirst [LinearOrder α] (T : Node α) (hb : BST T)
    (hbal : HBalanced T) (hc : count T < SIZE_MOD) :
    ∃ c, insertAll empty_tree (breadthFirst T) = some c ∧ WellFormed c ∧
      shape c.m_root = shape T := by
  obtain ⟨c, h, hw, hs⟩ :=
    insertAll_levels T hb hbal hc (H T) 0 empty_tree wellFormed_empty
      (by cases T <;> rfl)
  refine ⟨c, ?_, hw, ?_⟩
  · rw [breadthFirst, List.range_eq_range']
    exact h
  · rw [hs, Nat.zero_add, truncNode_all _ T (Nat.le_refl _)]

/-- The in-order sequence of the tree built by inserting a duplicate-free
rearrangement of a sorted sequence is that sequence. -/
theorem foldl_insSorted_eq [LinearOrder α] (xs L : List α) (hp : List.Perm xs L)
    (hL : L.Pairwise (· < ·)) : xs.foldl (fun M v => insSorted v M) [] = L := by
  apply List.eq_of_perm_of_sorted (r := (· < ·)) _
    (pairwise_foldl_insSorted xs [] List.Pairwise.nil) hL
  rw [List.perm_ext_iff_of_nodup
    (nodup_of_pairwise_lt (pairwise_foldl_insSorted xs [] List.Pairwise.nil))
    (nodup_of_pairwise_lt hL)]
  intro x
  rw [mem_foldl_insSorted, hp.mem_iff]
  simp

theorem exact_balanced_HBalanced {t : Node α} (he : Exact t) (hb : Balanced t) :
    HBalanced t := by
  induction t with
  | null => trivial
  | mk a l r h v ihl ihr =>
    obtain ⟨hel, her, -⟩ := he
    obtain ⟨hbl, hbr, h1, h2⟩ := hb
    rw [getBalance_mk, exact_height_eq_H hel, exact_height_eq_H her] at h1 h2
    exact ⟨ihl hel hbl, ihr her hbr, by omega, by omega⟩

/-! ## Claims on the copy constructor -/

/-- C14: the copy of a source tree with BST ordering, whatever its shape,
cached heights and size counter (its nodes fewer than `2 ^ 64`, as distinct
addresses are), is produced; it has the in-order traversal of the source,
`size()` equal to the length of that traversal, and satisfies the BST
ordering, exact cached heights and AVL balance, on the cached and on the
actual heights. -/
theorem copy_preserves_contents [LinearOrder α] (other : AVL α) (hb : BST other.m_root)
    (hc : count other.m_root < SIZE_MOD) :
    ∃ t, copy other = some t ∧ inorderTraverse t = inorderTraverse other ∧
      size t = (inorderTraverse other).length ∧ BST t.m_root ∧ Exact t.m_root ∧
      Balanced t.m_root ∧ HBalanced t.m_root ∧ size t = count t.m_root := by
  have hperm := breadthFirst_perm other.m_root
  have hlen : (breadthFirst other.m_root).length = count other.m_root := by
    rw [hperm.length_eq, count_eq_length]
  obtain ⟨t, ht, hw, hin⟩ :=
    insertAll_wellFormed (breadthFirst other.m_root) empty_tree wellFormed_empty
      (by show 0 + _ < SIZE_MOD; omega)
  have hin2 : inorderTraverse t = inorderTraverse other := by
    rw [hin]
    exact foldl_insSorted_eq _ _ hperm ((BST_iff_pairwise _).mp hb)
  obtain ⟨hb', he', hbal', hs', -, -⟩ := hw
  refine ⟨t, ?_, hin2, ?_, hb', he', hbal', exact_balanced_HBalanced he' hbal', hs'⟩
  · unfold copy levelorderTraverse
    rw [doLevelorder_eq, Option.some_bind]
    exact ht
  · show t.m_size = _
    rw [hs', count_eq_length, ← hin2]
    rfl

/-- Witness for C14: the source is the right-leaning chain 1, 2, 3 with cached
heights 0 and size counter 42; its copy is the balanced tree with root 2 and
size 3. -/
theorem copy_preserves_contents_witness :
    BST (.mk 1 .null (.mk 2 .null (.mk 3 .null .null 0 3) 0 2) 0 1 : Node Nat) ∧
      count (.mk 1 .null (.mk 2 .null (.mk 3 .null .null 0 3) 0 2) 0 1 : Node Nat) <
        SIZE_MOD ∧
      (∃ t, copy (⟨.mk 1 .null (.mk 2 .null (.mk 3 .null .null 0 3) 0 2) 0 1, 42⟩ : AVL Nat) =
          some t ∧
        inorderTraverse t =
          inorderTraverse
            (⟨.mk 1 .null (.mk 2 .null (.mk 3 .null .null 0 3) 0 2) 0 1, 42⟩ : AVL Nat) ∧
        size t = (inorderTraverse
            (⟨.mk 1 .null (.mk 2 .null (.mk 3 .null .null 0 3) 0 2) 0 1, 42⟩ :
              AVL Nat)).length ∧
        BST t.m_root ∧ Exact t.m_root ∧ Balanced t.m_root ∧ HBalanced t.m_root ∧
        size t = count t.m_root) ∧
      copy (⟨.mk 1 .null (.mk 2 .null (.mk 3 .null .null 0 3) 0 2) 0 1, 42⟩ : AVL Nat) =
        some ⟨.mk 2 (.mk 1 .null .null 1 1) (.mk 3 .null .null 1 3) 2 2, 3⟩ :=
  ⟨by decide, by decide,
    copy_preserves_contents
      (⟨.mk 1 .null (.mk 2 .null (.mk 3 .null .null 0 3) 0 2) 0 1, 42⟩ : AVL Nat)
      (by decide) (by decide),
    by decide⟩

/-- C19: the copy of a source tree that satisfies the BST ordering and
`|H(left) − H(right)| ≤ 1` at every node for the actual heights (its nodes
fewer than `2 ^ 64`) is produced and has the shape of the source with the
same value at every position.  Every `insert` of the replay returns the shape
of plain insertion, without a rotation (`doInsert_no_rotation`,
`insert_truncNode`). -/
theorem copy_same_shape [LinearOrder α] (other : AVL α) (hb : BST other.m_root)
    (hbal : HBalanced other.m_root) (hc : count other.m_root < SIZE_MOD) :
    ∃ t, copy other = some t ∧ shape t.m_root = shape other.m_root ∧
      size t = count other.m_root := by
  obtain ⟨c, h, hw, hs⟩ := insertAll_breadthFirst other.m_root hb hbal hc
  refine ⟨c, ?_, hs, ?_⟩
  · unfold copy levelorderTraverse
    rw [doLevelorder_eq, Option.some_bind]
    exact h
  · show c.m_size = _
    rw [hw.2.2.2.1, count_eq_length, shape_doInorder hs, ← count_eq_length]

/-- Witness for C19: the source has root 5 with children 3 (left child 1) and
8 (right child 9), cached heights 0 and size counter 0; its copy has the same
shape. -/
theorem copy_same_shape_witness :
    BST (.mk 1 (.mk 2 (.mk 3 .null .null 0 1) .null 0 3)
        (.mk 4 .null (.mk 5 .null .null 0 9) 0 8) 0 5 : Node Nat) ∧
      HBalanced (.mk 1 (.mk 2 (.mk 3 .null .null 0 1) .null 0 3)
        (.mk 4 .null (.mk 5 .null .null 0 9) 0 8) 0 5 : Node Nat) ∧
      count (.mk 1 (.mk 2 (.mk 3 .null .null 0 1) .null 0 3)
        (.mk 4 .null (.mk 5 .null .null 0 9) 0 8) 0 5 : Node Nat) < SIZE_MOD ∧
      (∃ t, copy (⟨.mk 1 (.mk 2 (.mk 3 .null .null 0 1) .null 0 3)
            (.mk 4 .null (.mk 5 .null .null 0 9) 0 8) 0 5, 0⟩ : AVL Nat) = some t ∧
        shape t.m_root = shape (.mk 1 (.mk 2 (.mk 3 .null .null 0 1) .null 0 3)
            (.mk 4 .null (.mk 5 .null .null 0 9) 0 8) 0 5 : Node Nat) ∧
        size t = count (.mk 1 (.mk 2 (.mk 3 .null .null 0 1) .null 0 3)
            (.mk 4 .null (.mk 5 .null .null 0 9) 0 8) 0 5 : Node Nat)) ∧
      copy (⟨.mk 1 (.mk 2 (.mk 3 .null .null 0 1) .null 0 3)
            (.mk 4 .null (.mk 5 .null .null 0 9) 0 8) 0 5, 0⟩ : AVL Nat) =
        some ⟨.mk 1 (.mk 2 (.mk 4 .null .null 1 1) .null 2 3)
          (.mk 3 .null (.mk 5 .null .null 1 9) 2 8) 3 5, 5⟩ :=
  ⟨by decide, by decide, by decide,
    copy_same_shape
      (⟨.mk 1 (.mk 2 (.mk 3 .null .null 0 1) .null 0 3)
        (.mk 4 .null (.mk 5 .null .null 0 9) 0 8) 0 5, 0⟩ : AVL Nat)
      (by decide) (by decide) (by decide),
    by decide⟩

end AVLTree
